import Mathlib

/-!
Shallow embedding of the module-graph engine in
`crates/next-api/src/module_graph.rs` and
`crates/next-api/src/client_references.rs`.

Modules are identified by natural numbers (the Rust code compares
`ResolvedVc<Box<dyn Module>>` handles purely by identity).  External
collaborators (`primary_referenced_modules`, the `"map"`-extension test,
`find_server_entries`, the downcast-based classification and
`to_rsc_context`) are supplied through an `Env` record, mirroring the
spec's "consumed from collaborators" interface.

The iterative work-stack loops of the Rust code are embedded as
fuel-indexed recursions returning `Option`: `none` means the fuel ran
out before the stack emptied (the Rust loops always terminate on the
finite graphs they are given; every theorem below is conditioned on the
loop having finished, and witnesses instantiate the fuel concretely).
Rust `Vec` stacks are lists whose head is the top of the stack, so
pushing a batch `l` of items in order is `l.reverse ++ stack`.
-/

namespace ModGraph

/-- External collaborators of the core, per §6 of the spec. -/
structure Env where
  /-- `primary_referenced_modules(module)`. -/
  refs : Nat → List Nat
  /-- `module.ident().path().extension_ref() == Some("map")`. -/
  isMapExt : Nat → Bool
  /-- `find_server_entries(entry).server_utils`. -/
  serverUtils : Nat → List Nat
  /-- `find_server_entries(entry).server_component_entries`. -/
  serverComponentEntries : Nat → List Nat

/-- The references of `m` that survive the sourcemap filter in
`SingleModuleGraph::new_inner` (targets with extension `"map"` are not
pushed onto the stack). -/
def filteredRefs (env : Env) (m : Nat) : List Nat :=
  (env.refs m).filter (fun r => !env.isMapExt r)

/-- `petgraph::DiGraph<Module, ()>` together with the `entries` map of
`SingleModuleGraph`.  A node index is a position in `nodes`; `edges`
are `(source index, target index)` pairs in insertion order (petgraph
`add_edge` allows parallel edges).  `entries` is the module → node-index
map, as an association list. -/
structure Graph where
  nodes : List Nat
  edges : List (Nat × Nat)
  entries : List (Nat × Nat)
deriving DecidableEq, Repr, Inhabited

/-- The mutable state of the `new_inner` walk: the petgraph under
construction plus the `modules: HashMap<Module, NodeIndex>` map
(association list, newest first). -/
structure BuildState where
  nodes : List Nat
  edges : List (Nat × Nat)
  modules : List (Nat × Nat)
deriving DecidableEq, Repr, Inhabited

/-- The `while let Some((parent_idx, module)) = stack.pop()` loop of
`SingleModuleGraph::new_inner`.  Fuel-indexed; `none` means fuel ran
out with a non-empty stack. -/
def buildLoop (env : Env) (visited : List Nat) :
    Nat → List (Option Nat × Nat) → BuildState → Option BuildState
  | _, [], s => some s
  | 0, _ :: _, _ => none
  | fuel + 1, (p, m) :: stk, s =>
    -- "Always add entries, even if already visited in other graphs"
    if p.isSome ∧ m ∈ visited then
      buildLoop env visited fuel stk s
    else
      match s.modules.lookup m with
      | some idx =>
        match p with
        | some pidx =>
          buildLoop env visited fuel stk { s with edges := s.edges ++ [(pidx, idx)] }
        | none => buildLoop env visited fuel stk s
      | none =>
        let idx := s.nodes.length
        let s' : BuildState :=
          { nodes := s.nodes ++ [m]
            edges := match p with
              | some pidx => s.edges ++ [(pidx, idx)]
              | none => s.edges
            modules := (m, idx) :: s.modules }
        buildLoop env visited fuel
          (((filteredRefs env m).map (fun r => (some idx, r))).reverse ++ stk) s'

/-- `SingleModuleGraph::new_inner`: runs the walk from the entries, then
adds the optional `root` node (wired to every entry) if it is not
already a node, and assembles the `entries` map.  The Rust
`modules.get(e).unwrap()` calls cannot fail once the walk has finished
(every entry is popped with `parent_idx == None` and therefore added);
`getD`/`filterMap` render them totally. -/
def newInner (env : Env) (fuel : Nat) (root : Option Nat) (entries : List Nat)
    (visited : List Nat) : Option Graph :=
  match buildLoop env visited fuel
      ((entries.map (fun e => ((none : Option Nat), e))).reverse)
      { nodes := [], edges := [], modules := [] } with
  | none => none
  | some s =>
    let rootNew : Option (Nat × Nat) :=
      match root with
      | none => none
      | some r => if (s.modules.lookup r).isSome then none else some (r, s.nodes.length)
    let s' : BuildState :=
      match rootNew with
      | none => s
      | some (r, ridx) =>
        { nodes := s.nodes ++ [r]
          edges := s.edges ++ entries.filterMap
            (fun e => (s.modules.lookup e).map (fun ei => (ridx, ei)))
          modules := (r, ridx) :: s.modules }
    some
      { nodes := s'.nodes
        edges := s'.edges
        entries := entries.map (fun e => (e, (s.modules.lookup e).getD 0))
          ++ rootNew.toList }

/-- `SingleModuleGraph::new_with_entries`: empty visited set, no root. -/
def newWithEntries (env : Env) (fuel : Nat) (entries : List Nat) : Option Graph :=
  newInner env fuel none entries []

/-- Transitive reachability from the entry list along primary
references, excluding references whose target has the `"map"`
(sourcemap) extension — the node-set specification of §3/§8. -/
inductive Reach (env : Env) (entries : List Nat) : Nat → Prop
  | entry {m : Nat} : m ∈ entries → Reach env entries m
  | step {a b : Nat} : Reach env entries a → b ∈ env.refs a →
      env.isMapExt b = false → Reach env entries b

/-- The `for module in server_component_entries` loop of
`get_module_graph_for_endpoint`: one graph per layout-segment entry,
each seeded with everything visited so far; the visited set is extended
with each graph's node weights. -/
def segmentGraphs (env : Env) (fuel : Nat) (entry : Nat) :
    List Nat → List Nat → Option (List Graph × List Nat)
  | [], visited => some ([], visited)
  | m :: ms, visited =>
    match newInner env fuel (some entry) [m] visited with
    | none => none
    | some g =>
      (segmentGraphs env fuel entry ms (visited ++ g.nodes)).map
        (fun p => (g :: p.1, p.2))

/-- `get_module_graph_for_endpoint` (layout segment optimization): a
graph from the server utilities with no seeding, then one per server
component entry seeded with everything so far, then one from the
endpoint module itself. -/
def getModuleGraphForEndpoint (env : Env) (fuel : Nat) (entry : Nat) :
    Option (List Graph) :=
  match newInner env fuel (some entry) (env.serverUtils entry) [] with
  | none => none
  | some g0 =>
    match segmentGraphs env fuel entry (env.serverComponentEntries entry) g0.nodes with
    | none => none
    | some (gs, visited) =>
      match newInner env fuel (some entry) [entry] visited with
      | none => none
      | some gN => some (g0 :: (gs ++ [gN]))

/-! ### Counting and indexing helpers -/

/-- Occurrence count of `v` in `l` (avoids `BEq` instance mismatches of
`List.count`). -/
def cnt {α : Type} [DecidableEq α] (v : α) : List α → Nat
  | [] => 0
  | a :: l => (if a = v then 1 else 0) + cnt v l

theorem cnt_append {α : Type} [DecidableEq α] (v : α) (l1 l2 : List α) :
    cnt v (l1 ++ l2) = cnt v l1 + cnt v l2 := by
  induction l1 with
  | nil => simp [cnt]
  | cons a t ih => simp [cnt, ih]; omega

theorem cnt_reverse {α : Type} [DecidableEq α] (v : α) (l : List α) :
    cnt v l.reverse = cnt v l := by
  induction l with
  | nil => rfl
  | cons a t ih => simp [cnt, List.reverse_cons, cnt_append, ih]; omega

theorem cnt_eq_zero {α : Type} [DecidableEq α] {v : α} {l : List α} (h : v ∉ l) :
    cnt v l = 0 := by
  induction l with
  | nil => rfl
  | cons a t ih =>
    simp only [List.mem_cons, not_or] at h
    simp [cnt, Ne.symm h.1, ih h.2]

theorem cnt_map_inj {α β : Type} [DecidableEq α] [DecidableEq β]
    {f : α → β} (hf : Function.Injective f) (v : α) (l : List α) :
    cnt (f v) (l.map f) = cnt v l := by
  induction l with
  | nil => rfl
  | cons a t ih =>
    simp only [List.map_cons, cnt, ih]
    by_cases hav : a = v
    · simp [hav]
    · have : ¬f a = f v := fun h => hav (hf h)
      simp [hav, this]

theorem cnt_pos_iff_mem {α : Type} [DecidableEq α] {v : α} {l : List α} :
    0 < cnt v l ↔ v ∈ l := by
  induction l with
  | nil => simp [cnt]
  | cons a t ih =>
    by_cases hav : a = v
    · subst hav
      simp [cnt]
    · simp [cnt, hav, ih, Ne.symm hav]

theorem getD_append_lt {l l2 : List Nat} {i : Nat} (d : Nat) (h : i < l.length) :
    (l ++ l2).getD i d = l.getD i d := by
  rw [List.getD_eq_getElem?_getD, List.getD_eq_getElem?_getD,
    List.getElem?_append_left h]

theorem getD_concat_self (l : List Nat) (a d : Nat) :
    (l ++ [a]).getD l.length d = a := by
  rw [List.getD_eq_getElem?_getD, List.getElem?_concat_length]
  rfl

theorem getD_mem_of_lt {l : List Nat} {i : Nat} (d : Nat) (h : i < l.length) :
    l.getD i d ∈ l := by
  rw [List.getD_eq_getElem?_getD, List.getElem?_eq_getElem h]
  exact List.getElem_mem h

theorem get?_eq_getD {l : List Nat} {i : Nat} {a : Nat} (d : Nat)
    (h : l.get? i = some a) : l.getD i d = a := by
  rw [List.getD_eq_getElem?_getD, ← List.get?_eq_getElem?, h]
  rfl

theorem lt_length_of_get? {l : List Nat} {i a : Nat} (h : l.get? i = some a) :
    i < l.length := by
  by_contra hi
  rw [List.get?_eq_getElem?, List.getElem?_eq_none (by omega)] at h
  exact Option.noConfusion h

theorem nodup_get?_inj {l : List Nat} (hn : l.Nodup) {i j a : Nat}
    (h1 : l.get? i = some a) (h2 : l.get? j = some a) : i = j := by
  have hi := lt_length_of_get? h1
  rw [List.get?_eq_getElem?] at h1 h2
  exact List.getElem?_inj hi hn (h1.trans h2.symm)

theorem cnt_cons {α : Type} [DecidableEq α] (v a : α) (l : List α) :
    cnt v (a :: l) = (if a = v then 1 else 0) + cnt v l := rfl

theorem cnt_cons_ne {α : Type} [DecidableEq α] {v a : α} (h : a ≠ v) (l : List α) :
    cnt v (a :: l) = cnt v l := by simp [cnt, h]

theorem cnt_nil {α : Type} [DecidableEq α] (v : α) : cnt v [] = 0 := rfl

theorem lookup_cons (a k : Nat) {β : Type} (v : β) (l : List (Nat × β)) :
    List.lookup a ((k, v) :: l) = if a = k then some v else List.lookup a l := by
  by_cases h : a = k
  · simp [List.lookup, h]
  · have hb : (a == k) = false := by simp [h]
    simp [List.lookup, hb, h]

theorem get?_of_lt_getD {l : List Nat} {j : Nat} (h : j < l.length) :
    l.get? j = some (l.getD j 0) := by
  rw [List.get?_eq_getElem?, List.getElem?_eq_getElem h,
    List.getD_eq_getElem?_getD, List.getElem?_eq_getElem h]
  rfl

/-- Count, in the batch of stack items pushed for a freshly created node
at index `len`, of an item whose parent index differs from `len`: always
zero (every pushed item carries parent `len`). -/
theorem cnt_pushed_ne {env : Env} {m len pi : Nat} (h : pi ≠ len) (x : Nat) :
    cnt ((some pi : Option Nat), x)
      (((filteredRefs env m).map (fun r => ((some len : Option Nat), r))).reverse) = 0 := by
  rw [cnt_reverse]
  apply cnt_eq_zero
  intro hc
  obtain ⟨r, -, hr⟩ := List.mem_map.1 hc
  have := congrArg Prod.fst hr
  simp only [Option.some.injEq] at this
  exact h this.symm

/-- Count of a pushed item with the new node's own parent index: the
multiplicity of the target in the filtered references. -/
theorem cnt_pushed_self (env : Env) (m len x : Nat) :
    cnt ((some len : Option Nat), x)
      (((filteredRefs env m).map (fun r => ((some len : Option Nat), r))).reverse)
      = cnt x (filteredRefs env m) := by
  rw [cnt_reverse]
  have hf : Function.Injective (fun r : Nat => ((some len : Option Nat), r)) :=
    fun a b h => congrArg Prod.snd h
  exact cnt_map_inj hf x _

/-- Loop invariant of the `new_inner` walk for builds with an empty
`visited_modules` set.  `stack`/`s` are the current stack and state. -/
structure BuildInv (env : Env) (entries : List Nat)
    (stack : List (Option Nat × Nat)) (s : BuildState) : Prop where
  nodup : s.nodes.Nodup
  lookup_get : ∀ m i, s.modules.lookup m = some i → s.nodes.get? i = some m
  mem_iff : ∀ m, m ∈ s.nodes ↔ (s.modules.lookup m).isSome
  reach_nodes : ∀ m, m ∈ s.nodes → Reach env entries m
  stack_none : ∀ e, ((none : Option Nat), e) ∈ stack → e ∈ entries
  stack_some : ∀ pi m, ((some pi : Option Nat), m) ∈ stack →
      ∃ a, s.nodes.get? pi = some a ∧ Reach env entries a ∧
        m ∈ env.refs a ∧ env.isMapExt m = false
  closure : ∀ m, m ∈ s.nodes → ∀ r, r ∈ filteredRefs env m →
      r ∈ s.nodes ∨ ∃ p, (p, r) ∈ stack
  entries_pending : ∀ e, e ∈ entries → e ∈ s.nodes ∨ ((none : Option Nat), e) ∈ stack
  edges_wf : ∀ e, e ∈ s.edges → e.1 < s.nodes.length ∧ e.2 < s.nodes.length
  edge_count : ∀ i j, i < s.nodes.length → j < s.nodes.length →
      cnt (i, j) s.edges + cnt ((some i : Option Nat), s.nodes.getD j 0) stack
        = cnt (s.nodes.getD j 0) (filteredRefs env (s.nodes.getD i 0))
  pending_count : ∀ i m, i < s.nodes.length → m ∉ s.nodes →
      cnt ((some i : Option Nat), m) stack
        = cnt m (filteredRefs env (s.nodes.getD i 0))

/-! ### Generic facts about `buildLoop` -/

/-- The invariant behind claim C2: stack items without a parent are
exactly the designated entries, and every node placed while in the
visited set must have been an entry. -/
def VisitInv (entries visited : List Nat) (stack : List (Option Nat × Nat))
    (s : BuildState) : Prop :=
  (∀ p m, (p, m) ∈ stack → p = none → m ∈ entries) ∧
  (∀ m, m ∈ s.nodes → m ∈ visited → m ∈ entries)

theorem buildLoop_visitInv {env : Env} {visited entries : List Nat} :
    ∀ {fuel : Nat} {stack : List (Option Nat × Nat)} {s s' : BuildState},
      VisitInv entries visited stack s →
      buildLoop env visited fuel stack s = some s' →
      VisitInv entries visited [] s'
  | _, [], s, s', hinv, heq => by
      simp only [buildLoop, Option.some.injEq] at heq
      subst heq
      exact ⟨fun p m h => by simp at h, hinv.2⟩
  | 0, _ :: _, _, _, _, heq => by simp [buildLoop] at heq
  | fuel + 1, (p, m) :: stk, s, s', hinv, heq => by
      obtain ⟨hstack, hnodes⟩ := hinv
      rw [buildLoop] at heq
      by_cases hv : p.isSome ∧ m ∈ visited
      · rw [if_pos hv] at heq
        refine buildLoop_visitInv ?_ heq
        exact ⟨fun p' m' h => hstack p' m' (by simp [h]), hnodes⟩
      · rw [if_neg hv] at heq
        cases hlk : s.modules.lookup m with
        | some idx =>
          simp only [hlk] at heq
          cases p with
          | some pidx =>
            refine buildLoop_visitInv ?_ heq
            exact ⟨fun p' m' h => hstack p' m' (by simp [h]), hnodes⟩
          | none =>
            refine buildLoop_visitInv ?_ heq
            exact ⟨fun p' m' h => hstack p' m' (by simp [h]), hnodes⟩
        | none =>
          simp only [hlk] at heq
          refine buildLoop_visitInv ⟨fun p' m' h => ?_, fun m' hm' hv' => ?_⟩ heq
          · rcases List.mem_append.1 h with h | h
            · intro hp'
              subst hp'
              simp at h
            · exact fun hp' => hstack p' m' (by simp [h]) hp'
          · simp only [List.mem_append, List.mem_singleton] at hm'
            rcases hm' with hm' | hm'
            · exact hnodes m' hm' hv'
            · subst hm'
              -- the popped item passed the visited check, so if it is
              -- in `visited` its parent was `none`, i.e. it is an entry
              cases p with
              | some pidx => exact absurd ⟨rfl, hv'⟩ hv
              | none => exact hstack none m' (by simp) rfl

/-- One step of the `new_inner` walk in the "new node" branch preserves
the invariant: the popped module `m` becomes node `s.nodes.length`, the
edge from the optional parent is recorded, and one stack item per
filtered reference is pushed. -/
theorem buildInv_new_node {env : Env} {entries : List Nat} {p : Option Nat} {m : Nat}
    {stk : List (Option Nat × Nat)} {s : BuildState}
    (hinv : BuildInv env entries ((p, m) :: stk) s)
    (hlk : s.modules.lookup m = none)
    (hmnot : m ∉ s.nodes)
    (hreach : Reach env entries m)
    (hp : ∀ pidx, p = some pidx → pidx < s.nodes.length) :
    BuildInv env entries
      ((((filteredRefs env m).map
          (fun r => ((some s.nodes.length : Option Nat), r))).reverse) ++ stk)
      { nodes := s.nodes ++ [m]
        edges := match p with
          | some pidx => s.edges ++ [(pidx, s.nodes.length)]
          | none => s.edges
        modules := (m, s.nodes.length) :: s.modules } := by
  have hget_new : (s.nodes ++ [m]).get? s.nodes.length = some m :=
    List.get?_concat_length _ _
  have hwt_new : (s.nodes ++ [m]).getD s.nodes.length 0 = m :=
    getD_concat_self _ _ _
  have hlen : (s.nodes ++ [m]).length = s.nodes.length + 1 := by simp
  have hstk0 : ∀ x : Nat,
      cnt ((some s.nodes.length : Option Nat), x) stk = 0 := by
    intro x
    apply cnt_eq_zero
    intro hc
    obtain ⟨a, hga, -, -, -⟩ :=
      hinv.stack_some s.nodes.length x (List.mem_cons_of_mem _ hc)
    exact absurd (lt_length_of_get? hga) (lt_irrefl _)
  refine ⟨?_, ?_, ?_, ?_, ?_, ?_, ?_, ?_, ?_, ?_, ?_⟩
  · -- nodup
    exact hinv.nodup.append (List.nodup_singleton m)
      (fun x hx hx' => by
        rw [List.mem_singleton] at hx'
        exact hmnot (hx' ▸ hx))
  · -- lookup_get
    intro m' i h
    rw [lookup_cons] at h
    by_cases hm' : m' = m
    · rw [if_pos hm'] at h
      have hi : s.nodes.length = i := by injection h
      rw [← hi, hm']
      exact hget_new
    · rw [if_neg hm'] at h
      have hg := hinv.lookup_get m' i h
      rw [List.get?_append (lt_length_of_get? hg)]
      exact hg
  · -- mem_iff
    intro m'
    rw [List.mem_append, List.mem_singleton, lookup_cons]
    by_cases hm' : m' = m
    · simp [hm']
    · simp [hm', hinv.mem_iff m']
  · -- reach_nodes
    intro m' hm'
    rcases List.mem_append.1 hm' with h | h
    · exact hinv.reach_nodes m' h
    · rw [List.mem_singleton] at h
      exact h ▸ hreach
  · -- stack_none
    intro e he
    rcases List.mem_append.1 he with h | h
    · exfalso
      rw [List.mem_reverse] at h
      obtain ⟨r, -, hr⟩ := List.mem_map.1 h
      have := congrArg Prod.fst hr
      simp at this
    · exact hinv.stack_none e (List.mem_cons_of_mem _ h)
  · -- stack_some
    intro pi m' h
    rcases List.mem_append.1 h with h | h
    · rw [List.mem_reverse] at h
      obtain ⟨r, hrmem, hr⟩ := List.mem_map.1 h
      have h1 : (some s.nodes.length : Option Nat) = some pi := congrArg Prod.fst hr
      have h1' : s.nodes.length = pi := by injection h1
      have h2 : r = m' := congrArg Prod.snd hr
      rw [filteredRefs, List.mem_filter] at hrmem
      refine ⟨m, by rw [← h1']; exact hget_new, hreach, ?_, ?_⟩
      · exact h2 ▸ hrmem.1
      · have := hrmem.2
        rw [h2] at this
        simpa using this
    · obtain ⟨a, hga', hra', h1, h2⟩ := hinv.stack_some pi m' (List.mem_cons_of_mem _ h)
      exact ⟨a, by rw [List.get?_append (lt_length_of_get? hga')]; exact hga', hra', h1, h2⟩
  · -- closure
    intro m' hm' r hr
    rcases List.mem_append.1 hm' with hm2 | hm2
    · rcases hinv.closure m' hm2 r hr with h | ⟨p', hp'⟩
      · exact Or.inl (List.mem_append.2 (Or.inl h))
      · rcases List.mem_cons.1 hp' with h | h
        · have : r = m := congrArg Prod.snd h
          exact Or.inl (List.mem_append.2 (Or.inr (by simp [this])))
        · exact Or.inr ⟨p', List.mem_append.2 (Or.inr h)⟩
    · have hm'm : m' = m := by simpa using hm2
      subst hm'm
      refine Or.inr ⟨some s.nodes.length, List.mem_append.2 (Or.inl ?_)⟩
      rw [List.mem_reverse]
      exact List.mem_map.2 ⟨r, hr, rfl⟩
  · -- entries_pending
    intro e he
    rcases hinv.entries_pending e he with h | h
    · exact Or.inl (List.mem_append.2 (Or.inl h))
    · rcases List.mem_cons.1 h with h | h
      · have he2 : e = m := congrArg Prod.snd h
        exact Or.inl (List.mem_append.2 (Or.inr (by simp [he2])))
      · exact Or.inr (List.mem_append.2 (Or.inr h))
  · -- edges_wf
    intro e he
    rw [hlen]
    cases p with
    | none =>
      obtain ⟨h1, h2⟩ := hinv.edges_wf e he
      exact ⟨by omega, by omega⟩
    | some pidx =>
      rcases List.mem_append.1 he with h | h
      · obtain ⟨h1, h2⟩ := hinv.edges_wf e h
        exact ⟨by omega, by omega⟩
      · have : e = (pidx, s.nodes.length) := by simpa using h
        subst this
        have := hp pidx rfl
        exact ⟨by omega, by omega⟩
  · -- edge_count
    intro i j hi hj
    rw [hlen] at hi hj
    by_cases hjlen : j < s.nodes.length
    · have hwj : (s.nodes ++ [m]).getD j 0 = s.nodes.getD j 0 := getD_append_lt 0 hjlen
      have hwjne : s.nodes.getD j 0 ≠ m := fun h => hmnot (h ▸ getD_mem_of_lt 0 hjlen)
      by_cases hilen : i < s.nodes.length
      · have hwi : (s.nodes ++ [m]).getD i 0 = s.nodes.getD i 0 := getD_append_lt 0 hilen
        have hold := hinv.edge_count i j hilen hjlen
        have hheadne : (p, m) ≠ ((some i : Option Nat), s.nodes.getD j 0) :=
          fun h => hwjne (congrArg Prod.snd h).symm
        rw [cnt_cons_ne hheadne] at hold
        have hpz : cnt ((some i : Option Nat), s.nodes.getD j 0)
            (((filteredRefs env m).map
              (fun r => ((some s.nodes.length : Option Nat), r))).reverse) = 0 :=
          cnt_pushed_ne (by omega) _
        rw [hwj, hwi, cnt_append, hpz]
        cases p with
        | none =>
          simp only []
          omega
        | some pidx =>
          simp only []
          have hsz : cnt (i, j) [(pidx, s.nodes.length)] = 0 := by
            apply cnt_eq_zero
            simp only [List.mem_singleton]
            intro h
            have : j = s.nodes.length := congrArg Prod.snd h
            omega
          rw [cnt_append, hsz]
          omega
      · have hieq : i = s.nodes.length := by omega
        subst hieq
        have hez : cnt (s.nodes.length, j) s.edges = 0 := by
          apply cnt_eq_zero
          intro hc
          exact absurd (hinv.edges_wf _ hc).1 (lt_irrefl _)
        rw [hwj, hwt_new, cnt_append, cnt_pushed_self, hstk0]
        cases p with
        | none =>
          simp only []
          rw [hez]; omega
        | some pidx =>
          simp only []
          have hpl := hp pidx rfl
          have hsz : cnt (s.nodes.length, j) [(pidx, s.nodes.length)] = 0 := by
            apply cnt_eq_zero
            simp only [List.mem_singleton]
            intro h
            have : s.nodes.length = pidx := congrArg Prod.fst h
            omega
          rw [cnt_append, hez, hsz]
          omega
    · have hjeq : j = s.nodes.length := by omega
      subst hjeq
      by_cases hilen : i < s.nodes.length
      · have hwi : (s.nodes ++ [m]).getD i 0 = s.nodes.getD i 0 := getD_append_lt 0 hilen
        have hold := hinv.pending_count i m hilen hmnot
        rw [cnt_cons] at hold
        have hez : cnt (i, s.nodes.length) s.edges = 0 := by
          apply cnt_eq_zero
          intro hc
          exact absurd (hinv.edges_wf _ hc).2 (lt_irrefl _)
        have hpz : cnt ((some i : Option Nat), m)
            (((filteredRefs env m).map
              (fun r => ((some s.nodes.length : Option Nat), r))).reverse) = 0 :=
          cnt_pushed_ne (by omega) _
        rw [hwt_new, hwi, cnt_append, hpz]
        cases p with
        | none =>
          simp only []
          rw [if_neg (by simp)] at hold
          rw [hez]
          omega
        | some pidx =>
          simp only []
          have hsz : cnt (i, s.nodes.length) [(pidx, s.nodes.length)]
              = if pidx = i then 1 else 0 := by
            by_cases hpi : pidx = i
            · subst hpi
              simp [cnt]
            · have : ¬((pidx, s.nodes.length) = (i, s.nodes.length)) :=
                fun h => hpi (congrArg Prod.fst h)
              simp [cnt, this, hpi]
          rw [cnt_append, hez, hsz]
          by_cases hpi : pidx = i
          · subst hpi
            rw [if_pos rfl] at hold ⊢
            omega
          · rw [if_neg (fun h => hpi ((by injection congrArg Prod.fst h : pidx = i)))] at hold
            rw [if_neg hpi]
            omega
      · have hieq : i = s.nodes.length := by omega
        subst hieq
        have hez : cnt (s.nodes.length, s.nodes.length) s.edges = 0 := by
          apply cnt_eq_zero
          intro hc
          exact absurd (hinv.edges_wf _ hc).1 (lt_irrefl _)
        rw [hwt_new, cnt_append, cnt_pushed_self, hstk0]
        cases p with
        | none =>
          simp only []
          rw [hez]; omega
        | some pidx =>
          simp only []
          have hpl := hp pidx rfl
          have hsz : cnt (s.nodes.length, s.nodes.length) [(pidx, s.nodes.length)] = 0 := by
            apply cnt_eq_zero
            simp only [List.mem_singleton]
            intro h
            have : s.nodes.length = pidx := congrArg Prod.fst h
            omega
          rw [cnt_append, hez, hsz]
          omega
  · -- pending_count
    intro i m' hi hm'
    rw [hlen] at hi
    have hm'ne : m' ≠ m := fun h => hm' (List.mem_append.2 (Or.inr (by simp [h])))
    have hm'old : m' ∉ s.nodes := fun h => hm' (List.mem_append.2 (Or.inl h))
    by_cases hilen : i < s.nodes.length
    · have hwi : (s.nodes ++ [m]).getD i 0 = s.nodes.getD i 0 := getD_append_lt 0 hilen
      have hold := hinv.pending_count i m' hilen hm'old
      have hne2 : (p, m) ≠ ((some i : Option Nat), m') :=
        fun h => hm'ne (congrArg Prod.snd h).symm
      rw [cnt_cons_ne hne2] at hold
      have hpz : cnt ((some i : Option Nat), m')
          (((filteredRefs env m).map
            (fun r => ((some s.nodes.length : Option Nat), r))).reverse) = 0 :=
        cnt_pushed_ne (by omega) _
      simp only []
      rw [cnt_append, hpz, hwi]
      omega
    · have hieq : i = s.nodes.length := by omega
      subst hieq
      simp only []
      rw [cnt_append, cnt_pushed_self, hstk0, hwt_new]
      omega

theorem buildLoop_buildInv {env : Env} {entries : List Nat} :
    ∀ {fuel : Nat} {stack : List (Option Nat × Nat)} {s s' : BuildState},
      BuildInv env entries stack s →
      buildLoop env [] fuel stack s = some s' →
      BuildInv env entries [] s'
  | _, [], s, s', hinv, heq => by
      simp only [buildLoop, Option.some.injEq] at heq
      subst heq
      exact hinv
  | 0, _ :: _, _, _, _, heq => by simp [buildLoop] at heq
  | fuel + 1, (p, m) :: stk, s, s', hinv, heq => by
      rw [buildLoop] at heq
      have hguard : ¬(p.isSome = true ∧ m ∈ ([] : List Nat)) := by simp
      rw [if_neg hguard] at heq
      cases hlk : s.modules.lookup m with
      | some idx =>
        simp only [hlk] at heq
        have hmem : m ∈ s.nodes := (hinv.mem_iff m).2 (by simp [hlk])
        have hgetidx : s.nodes.get? idx = some m := hinv.lookup_get m idx hlk
        have hidxlt : idx < s.nodes.length := lt_length_of_get? hgetidx
        have hwidx : s.nodes.getD idx 0 = m := get?_eq_getD 0 hgetidx
        cases p with
        | none =>
          refine buildLoop_buildInv ?_ heq
          refine ⟨hinv.nodup, hinv.lookup_get, hinv.mem_iff, hinv.reach_nodes,
            fun e he => hinv.stack_none e (List.mem_cons_of_mem _ he),
            fun pi m' h => hinv.stack_some pi m' (List.mem_cons_of_mem _ h),
            ?_, ?_, hinv.edges_wf, ?_, ?_⟩
          · intro m' hm' r hr
            rcases hinv.closure m' hm' r hr with h | ⟨p', hp'⟩
            · exact Or.inl h
            · rcases List.mem_cons.1 hp' with h | h
              · have : r = m := congrArg Prod.snd h
                exact Or.inl (this ▸ hmem)
              · exact Or.inr ⟨p', h⟩
          · intro e he
            rcases hinv.entries_pending e he with h | h
            · exact Or.inl h
            · rcases List.mem_cons.1 h with h | h
              · have : e = m := congrArg Prod.snd h
                exact Or.inl (this ▸ hmem)
              · exact Or.inr h
          · intro i j hi hj
            have hold := hinv.edge_count i j hi hj
            rwa [cnt_cons_ne (by simp)] at hold
          · intro i m' hi hm'
            have hold := hinv.pending_count i m' hi hm'
            rwa [cnt_cons_ne (by simp)] at hold
        | some pidx =>
          obtain ⟨a, hga, hra, hmr, hmm⟩ := hinv.stack_some pidx m (List.mem_cons_self _ _)
          have hpidxlt : pidx < s.nodes.length := lt_length_of_get? hga
          refine buildLoop_buildInv ?_ heq
          refine ⟨hinv.nodup, hinv.lookup_get, hinv.mem_iff, hinv.reach_nodes,
            fun e he => hinv.stack_none e (List.mem_cons_of_mem _ he),
            fun pi m' h => hinv.stack_some pi m' (List.mem_cons_of_mem _ h),
            ?_, ?_, ?_, ?_, ?_⟩
          · intro m' hm' r hr
            rcases hinv.closure m' hm' r hr with h | ⟨p', hp'⟩
            · exact Or.inl h
            · rcases List.mem_cons.1 hp' with h | h
              · have : r = m := congrArg Prod.snd h
                exact Or.inl (this ▸ hmem)
              · exact Or.inr ⟨p', h⟩
          · intro e he
            rcases hinv.entries_pending e he with h | h
            · exact Or.inl h
            · rcases List.mem_cons.1 h with h | h
              · exact absurd (congrArg Prod.fst h) (by simp)
              · exact Or.inr h
          · intro e he
            rcases List.mem_append.1 he with h | h
            · exact hinv.edges_wf e h
            · have : e = (pidx, idx) := by simpa using h
              subst this
              exact ⟨hpidxlt, hidxlt⟩
          · intro i j hi hj
            simp only [] at hi hj ⊢
            have hold := hinv.edge_count i j hi hj
            rw [cnt_cons] at hold
            rw [cnt_append]
            have hkey : ((pidx, idx) = (i, j))
                ↔ (((some pidx : Option Nat), m) = ((some i : Option Nat), s.nodes.getD j 0)) := by
              constructor
              · intro h
                have h1 : pidx = i := congrArg Prod.fst h
                have h2 : idx = j := congrArg Prod.snd h
                subst h1; subst h2
                rw [hwidx]
              · intro h
                have h1 : some pidx = some i := congrArg Prod.fst h
                have h2 : m = s.nodes.getD j 0 := congrArg Prod.snd h
                have h1' : pidx = i := by injection h1
                have hgj : s.nodes.get? j = some m := by
                  rw [get?_of_lt_getD hj, ← h2]
                have h2' : idx = j := nodup_get?_inj hinv.nodup hgetidx hgj
                rw [h1', h2']
            by_cases hc : (pidx, idx) = (i, j)
            · rw [if_pos (hkey.1 hc)] at hold
              have : cnt (i, j) [(pidx, idx)] = 1 := by
                rw [hc]; simp [cnt]
              omega
            · rw [if_neg (fun hx => hc (hkey.2 hx))] at hold
              have : cnt (i, j) [(pidx, idx)] = 0 := by
                apply cnt_eq_zero
                simp only [List.mem_singleton]
                exact fun hx => hc hx.symm
              omega
          · intro i m' hi hm'
            have hold := hinv.pending_count i m' hi hm'
            have hne : ((some pidx : Option Nat), m) ≠ ((some i : Option Nat), m') := by
              intro h
              have h2 : m = m' := congrArg Prod.snd h
              exact hm' (h2 ▸ hmem)
            rwa [cnt_cons_ne hne] at hold
      | none =>
        simp only [hlk] at heq
        have hmnot : m ∉ s.nodes := by
          intro h
          have := (hinv.mem_iff m).1 h
          rw [hlk] at this
          simp at this
        have hget_new : (s.nodes ++ [m]).get? s.nodes.length = some m :=
          List.get?_concat_length _ _
        have hwt_new : (s.nodes ++ [m]).getD s.nodes.length 0 = m :=
          getD_concat_self _ _ _
        have hlen : (s.nodes ++ [m]).length = s.nodes.length + 1 := by simp
        have hnodup2 : (s.nodes ++ [m]).Nodup :=
          hinv.nodup.append (List.nodup_singleton m)
            (fun x hx hx' => by
              rw [List.mem_singleton] at hx'
              exact hmnot (hx' ▸ hx))
        have hstk0 : ∀ x : Nat,
            cnt ((some s.nodes.length : Option Nat), x) stk = 0 := by
          intro x
          apply cnt_eq_zero
          intro hc
          obtain ⟨a, hga, -, -, -⟩ :=
            hinv.stack_some s.nodes.length x (List.mem_cons_of_mem _ hc)
          exact absurd (lt_length_of_get? hga) (lt_irrefl _)
        cases p with
        | none =>
          have hreach : Reach env entries m :=
            Reach.entry (hinv.stack_none m (List.mem_cons_self _ _))
          exact buildLoop_buildInv
            (buildInv_new_node hinv hlk hmnot hreach (fun pidx h => by simp at h)) heq
        | some pidx =>
          obtain ⟨a, hga, hra, hmr, hmm⟩ := hinv.stack_some pidx m (List.mem_cons_self _ _)
          have hreach : Reach env entries m := Reach.step hra hmr hmm
          have hpidxlt : pidx < s.nodes.length := lt_length_of_get? hga
          exact buildLoop_buildInv
            (buildInv_new_node hinv hlk hmnot hreach
              (fun pidx' h => by cases h; exact hpidxlt)) heq

/-- The invariant holds at the start of the walk: an empty graph and a
stack holding one parentless item per entry. -/
theorem buildInv_init (env : Env) (entries : List Nat) :
    BuildInv env entries
      ((entries.map (fun e => ((none : Option Nat), e))).reverse)
      { nodes := [], edges := [], modules := [] } := by
  refine ⟨List.nodup_nil, ?_, ?_, ?_, ?_, ?_, ?_, ?_, ?_, ?_, ?_⟩
  · intro m i h
    simp [List.lookup] at h
  · intro m
    simp [List.lookup]
  · intro m hm
    simp at hm
  · intro e he
    rw [List.mem_reverse] at he
    obtain ⟨x, hx, hxe⟩ := List.mem_map.1 he
    have : x = e := congrArg Prod.snd hxe
    exact this ▸ hx
  · intro pi m h
    rw [List.mem_reverse] at h
    obtain ⟨x, -, hxe⟩ := List.mem_map.1 h
    have := congrArg Prod.fst hxe
    simp at this
  · intro m hm
    simp at hm
  · intro e he
    refine Or.inr ?_
    rw [List.mem_reverse]
    exact List.mem_map.2 ⟨e, he, rfl⟩
  · intro e he
    simp at he
  · intro i j hi _
    simp at hi
  · intro i m hi _
    simp at hi

/-- With an empty stack, the invariant's closure and pending-entries
facts force every reachable module to be a node. -/
theorem buildInv_complete {env : Env} {entries : List Nat} {s : BuildState}
    (hinv : BuildInv env entries [] s) :
    ∀ m, Reach env entries m → m ∈ s.nodes := by
  intro m h
  induction h with
  | entry he =>
    rcases hinv.entries_pending _ he with h | h
    · exact h
    · simp at h
  | @step a b _ hb hmap ih =>
    have hfr : b ∈ filteredRefs env a := by
      rw [filteredRefs, List.mem_filter]
      exact ⟨hb, by simp [hmap]⟩
    rcases hinv.closure _ ih _ hfr with h | ⟨p, hp⟩
    · exact h
    · simp at hp

/-- C1: for an empty visited set (and no synthetic root), the node set
of the built graph is exactly the set of modules transitively reachable
from the entries via primary references excluding sourcemap targets,
and the node list has no duplicates (each module is one node). -/
theorem claim_nodes_exactly_reachable (env : Env) (fuel : Nat) (entries : List Nat)
    (g : Graph) (h : newInner env fuel none entries [] = some g) :
    (∀ m, m ∈ g.nodes ↔ Reach env entries m) ∧ g.nodes.Nodup := by
  rw [newInner] at h
  cases hb : buildLoop env [] fuel
      ((entries.map (fun e => ((none : Option Nat), e))).reverse)
      { nodes := [], edges := [], modules := [] } with
  | none => rw [hb] at h; simp at h
  | some s =>
    rw [hb] at h
    simp only [Option.some.injEq] at h
    subst h
    have hinv : BuildInv env entries [] s :=
      buildLoop_buildInv (buildInv_init env entries) hb
    exact ⟨fun m => ⟨hinv.reach_nodes m, buildInv_complete hinv m⟩, hinv.nodup⟩

/-- C6 (amended): in a graph built with an empty visited set, edges join
valid node indices and the number of parallel edges from node `i` to
node `j` equals the multiplicity of `j`'s module in the filtered
primary-reference list of `i`'s module — duplicate references yield
duplicate edges, and each distinct referencing parent contributes its
own edges. -/
theorem claim_edge_multiplicity (env : Env) (fuel : Nat) (entries : List Nat)
    (g : Graph) (h : newInner env fuel none entries [] = some g) :
    (∀ e, e ∈ g.edges → e.1 < g.nodes.length ∧ e.2 < g.nodes.length) ∧
    (∀ i j, i < g.nodes.length → j < g.nodes.length →
      cnt (i, j) g.edges
        = cnt (g.nodes.getD j 0) (filteredRefs env (g.nodes.getD i 0))) := by
  rw [newInner] at h
  cases hb : buildLoop env [] fuel
      ((entries.map (fun e => ((none : Option Nat), e))).reverse)
      { nodes := [], edges := [], modules := [] } with
  | none => rw [hb] at h; simp at h
  | some s =>
    rw [hb] at h
    simp only [Option.some.injEq] at h
    subst h
    have hinv : BuildInv env entries [] s :=
      buildLoop_buildInv (buildInv_init env entries) hb
    refine ⟨hinv.edges_wf, fun i j hi hj => ?_⟩
    have := hinv.edge_count i j hi hj
    rwa [cnt_nil, Nat.add_zero] at this

/-! ### Traversal primitives -/

/-- `GraphTraversalAction`: `Continue` visits children, `Skip` skips
the immediate children. -/
inductive Action
  | cont
  | skip
deriving DecidableEq, Repr

/-- petgraph `graph.neighbors(node)`: targets of the outgoing edges of
`n`, in reverse edge-insertion order (petgraph prepends to the
per-node edge list on `add_edge` and iterates from the head). -/
def neighbors (g : Graph) (n : Nat) : List Nat :=
  ((g.edges.filter (fun e => e.1 == n)).map (fun e => e.2)).reverse

/-- Instrumentation record for one `traverse_edges_from_entry` call:
the visitor invocations in order (with the action each returned), and
the stack pushes, pops and node expansions at the node-index level. -/
structure WalkTrace where
  calls : List ((Option Nat × Nat) × Action)
  pushes : List Nat
  pops : List Nat
  expanded : List Nat
deriving DecidableEq, Repr, Inhabited

/-- The `for succ in graph.neighbors(node)` body of
`traverse_edges_from_entry`: one visitor invocation per outgoing edge;
a successor is collected for pushing when it is not yet discovered and
the visitor returned `Continue`.  The visitor is stateful (`FnMut`). -/
def expandNode {σ : Type} (g : Graph) (vis : σ → Option Nat × Nat → σ × Action)
    (w : Nat) (disc : List Nat) :
    σ → WalkTrace → List Nat → σ × WalkTrace × List Nat
  | st, tr, [] => (st, tr, [])
  | st, tr, succ :: rest =>
    let sw := g.nodes.getD succ 0
    let r := vis st (some w, sw)
    let tr1 := { tr with calls := tr.calls ++ [((some w, sw), r.2)] }
    if succ ∉ disc ∧ r.2 = Action.cont then
      let out := expandNode g vis w disc r.1
        { tr1 with pushes := tr1.pushes ++ [succ] } rest
      (out.1, out.2.1, succ :: out.2.2)
    else
      expandNode g vis w disc r.1 tr1 rest

/-- The `while let Some(node) = stack.pop()` loop of
`traverse_edges_from_entry`: `discovered.visit(node)` marks at pop
time; an already-discovered pop is dropped without expansion. -/
def walkLoop {σ : Type} (g : Graph) (vis : σ → Option Nat × Nat → σ × Action) :
    Nat → List Nat → List Nat → σ → WalkTrace → Option (σ × WalkTrace)
  | _, [], _, st, tr => some (st, tr)
  | 0, _ :: _, _, _, _ => none
  | fuel + 1, n :: stack, disc, st, tr =>
    if n ∈ disc then
      walkLoop g vis fuel stack disc st { tr with pops := tr.pops ++ [n] }
    else
      match expandNode g vis (g.nodes.getD n 0) (n :: disc) st
        { tr with pops := tr.pops ++ [n], expanded := tr.expanded ++ [n] }
        (neighbors g n) with
      | (st2, tr2, ps) => walkLoop g vis fuel (ps.reverse ++ stack) (n :: disc) st2 tr2

/-- `SingleModuleGraph::traverse_edges_from_entry`, instrumented with a
trace.  The visitor is first invoked on the synthetic root edge
`(None, entry)` — its returned action is discarded — and the entry node
is the initial stack content.  `none` models a failed `get_entry`
lookup or fuel exhaustion. -/
def traverseEdges {σ : Type} (g : Graph) (fuel : Nat) (entry : Nat)
    (vis : σ → Option Nat × Nat → σ × Action) (st0 : σ) :
    Option (σ × WalkTrace) :=
  match g.entries.lookup entry with
  | none => none
  | some eidx =>
    let r := vis st0 (none, entry)
    walkLoop g vis fuel [eidx] [] r.1
      { calls := [((none, entry), r.2)], pushes := [eidx], pops := [], expanded := [] }

/-- petgraph's `Dfs::next` loop as used by
`SingleModuleGraph::traverse_from_entry`: pops a node, discovers it
(skipping already-discovered pops), pushes its undiscovered neighbors,
and reports the node; the returned list is the visit order. -/
def dfsLoop (g : Graph) : Nat → List Nat → List Nat → Option (List Nat)
  | _, [], _ => some []
  | 0, _ :: _, _ => none
  | fuel + 1, n :: stack, disc =>
    if n ∈ disc then
      dfsLoop g fuel stack disc
    else
      (dfsLoop g fuel
        (((neighbors g n).filter (fun s => !(s ∈ n :: disc : Bool))).reverse ++ stack)
        (n :: disc)).map (fun rest => n :: rest)

/-- `SingleModuleGraph::traverse_from_entry`: visits every node
reachable from the entry once, in DFS pop order; the visitor receives
node weights.  Returns the list of visited modules in visit order. -/
def traverseFromEntry (g : Graph) (fuel : Nat) (entry : Nat) : Option (List Nat) :=
  match g.entries.lookup entry with
  | none => none
  | some eidx =>
    (dfsLoop g fuel [eidx] []).map (fun idxs => idxs.map (fun i => g.nodes.getD i 0))

/-- Number of visitor calls in `calls` that carry a real parent, target
the module of node `b`, and returned `Continue`. -/
def contCallsTo (g : Graph) (b : Nat)
    (calls : List ((Option Nat × Nat) × Action)) : Nat :=
  (calls.filter (fun c =>
    c.1.1.isSome && (c.1.2 == g.nodes.getD b 0) && (c.2 == Action.cont))).length

theorem cnt_le_filter_length {α : Type} [DecidableEq α] {p : α → Bool} {v : α}
    (hv : p v = true) (l : List α) : cnt v l ≤ (l.filter p).length := by
  induction l with
  | nil => simp [cnt]
  | cons a t ih =>
    by_cases hav : a = v
    · subst hav
      rw [List.filter_cons_of_pos hv]
      have h1 : cnt a (a :: t) = 1 + cnt a t := by simp [cnt]
      rw [h1, List.length_cons]
      omega
    · rw [cnt_cons_ne hav]
      cases hpa : p a with
      | true =>
        rw [List.filter_cons_of_pos hpa]
        simp only [List.length_cons]
        omega
      | false =>
        rw [List.filter_cons_of_neg (by simp [hpa])]
        exact ih

/-- What one node expansion does to the trace: it appends one call per
listed successor (all with the expanding node as parent), appends
exactly the returned push list `ps` to the pushes, leaves pops and
expansions unchanged, and every collected push is an undiscovered
successor whose call returned `Continue`. -/
theorem expandNode_spec {σ : Type} {g : Graph} {vis : σ → Option Nat × Nat → σ × Action}
    {w : Nat} {disc : List Nat} :
    ∀ {succs : List Nat} {st : σ} {tr : WalkTrace} {st' : σ} {tr' : WalkTrace}
      {ps : List Nat},
      expandNode g vis w disc st tr succs = (st', tr', ps) →
      ∃ newcalls,
        tr'.calls = tr.calls ++ newcalls ∧
        tr'.pushes = tr.pushes ++ ps ∧
        tr'.pops = tr.pops ∧
        tr'.expanded = tr.expanded ∧
        (∀ c, c ∈ newcalls → c.1.1 = some w) ∧
        (∀ x, x ∈ succs → ∃ a, ((some w, g.nodes.getD x 0), a) ∈ newcalls) ∧
        (∀ b, cnt b ps ≤ cnt ((some w, g.nodes.getD b 0), Action.cont) newcalls) ∧
        (∀ b, b ∈ ps → b ∉ disc ∧ b ∈ succs)
  | [], st, tr, st', tr', ps, heq => by
      simp only [expandNode, Prod.mk.injEq] at heq
      obtain ⟨h1, h2, h3⟩ := heq
      subst h1; subst h2; subst h3
      exact ⟨[], by simp, by simp, rfl, rfl, by simp, by simp, fun b => by simp [cnt],
        by simp⟩
  | succ :: rest, st, tr, st', tr', ps, heq => by
      rw [expandNode] at heq
      by_cases hcond : succ ∉ disc ∧ (vis st (some w, g.nodes.getD succ 0)).2 = Action.cont
      · rw [if_pos hcond] at heq
        cases hout : expandNode g vis w disc (vis st (some w, g.nodes.getD succ 0)).1
            { tr with
              calls := tr.calls ++ [((some w, g.nodes.getD succ 0),
                (vis st (some w, g.nodes.getD succ 0)).2)]
              pushes := tr.pushes ++ [succ] } rest with
        | mk st2 out2 =>
          obtain ⟨tr2, ps2⟩ := out2
          rw [hout] at heq
          simp only [Prod.mk.injEq] at heq
          obtain ⟨h1, h2, h3⟩ := heq
          subst h1; subst h2; subst h3
          obtain ⟨nc, hc, hp, hpop, hexp, hsome, hall, hcnt, hmem⟩ :=
            expandNode_spec hout
          refine ⟨((some w, g.nodes.getD succ 0),
              (vis st (some w, g.nodes.getD succ 0)).2) :: nc, ?_, ?_, ?_, ?_, ?_, ?_, ?_, ?_⟩
          · simp [hc]
          · simp [hp]
          · rw [hpop]
          · rw [hexp]
          · intro c hc2
            rcases List.mem_cons.1 hc2 with h | h
            · rw [h]
            · exact hsome c h
          · intro x hx
            rcases List.mem_cons.1 hx with h | h
            · subst h
              exact ⟨(vis st (some w, g.nodes.getD x 0)).2, List.mem_cons_self _ _⟩
            · obtain ⟨a, ha⟩ := hall x h
              exact ⟨a, List.mem_cons_of_mem _ ha⟩
          · intro b
            rw [cnt_cons, cnt_cons]
            by_cases hbs : succ = b
            · subst hbs
              rw [if_pos rfl, if_pos (by rw [hcond.2])]
              have := hcnt succ
              omega
            · rw [if_neg hbs]
              have := hcnt b
              have hle : (if ((some w, g.nodes.getD succ 0),
                    (vis st (some w, g.nodes.getD succ 0)).2)
                  = ((some w, g.nodes.getD b 0), Action.cont) then 1 else 0) ≥ 0 :=
                Nat.zero_le _
              omega
          · intro b hb
            rcases List.mem_cons.1 hb with h | h
            · subst h
              exact ⟨hcond.1, List.mem_cons_self _ _⟩
            · obtain ⟨h1, h2⟩ := hmem b h
              exact ⟨h1, List.mem_cons_of_mem _ h2⟩
      · rw [if_neg hcond] at heq
        obtain ⟨nc, hc, hp, hpop, hexp, hsome, hall, hcnt, hmem⟩ :=
          expandNode_spec heq
        refine ⟨((some w, g.nodes.getD succ 0),
            (vis st (some w, g.nodes.getD succ 0)).2) :: nc, ?_, ?_, ?_, ?_, ?_, ?_, ?_, ?_⟩
        · simp [hc]
        · simp [hp]
        · rw [hpop]
        · rw [hexp]
        · intro c hc2
          rcases List.mem_cons.1 hc2 with h | h
          · rw [h]
          · exact hsome c h
        · intro x hx
          rcases List.mem_cons.1 hx with h | h
          · subst h
            exact ⟨(vis st (some w, g.nodes.getD x 0)).2, List.mem_cons_self _ _⟩
          · obtain ⟨a, ha⟩ := hall x h
            exact ⟨a, List.mem_cons_of_mem _ ha⟩
        · intro b
          rw [cnt_cons]
          have := hcnt b
          omega
        · intro b hb
          obtain ⟨h1, h2⟩ := hmem b hb
          exact ⟨h1, List.mem_cons_of_mem _ h2⟩

/-- The walk only ever appends to the call log. -/
theorem walkLoop_calls_mono {σ : Type} {g : Graph}
    {vis : σ → Option Nat × Nat → σ × Action} :
    ∀ {fuel : Nat} {stack disc : List Nat} {st : σ} {tr : WalkTrace}
      {st' : σ} {tr' : WalkTrace},
      walkLoop g vis fuel stack disc st tr = some (st', tr') →
      ∃ rest, tr'.calls = tr.calls ++ rest ∧ ∀ c, c ∈ rest → c.1.1.isSome
  | _, [], _, _, _, _, _, heq => by
      simp only [walkLoop, Option.some.injEq, Prod.mk.injEq] at heq
      obtain ⟨-, h2⟩ := heq
      subst h2
      exact ⟨[], by simp, by simp⟩
  | 0, _ :: _, _, _, _, _, _, heq => by simp [walkLoop] at heq
  | fuel + 1, n :: stack, disc, st, tr, st', tr', heq => by
      rw [walkLoop] at heq
      by_cases hd : n ∈ disc
      · rw [if_pos hd] at heq
        obtain ⟨rest, hr, hs⟩ := walkLoop_calls_mono heq
        exact ⟨rest, hr, hs⟩
      · rw [if_neg hd] at heq
        cases hout : expandNode g vis (g.nodes.getD n 0) (n :: disc) st
            { tr with pops := tr.pops ++ [n], expanded := tr.expanded ++ [n] }
            (neighbors g n) with
        | mk st2 out2 =>
          obtain ⟨tr2, ps⟩ := out2
          rw [hout] at heq
          obtain ⟨nc, hc, -, -, -, hsome, -, -, -⟩ := expandNode_spec hout
          obtain ⟨rest, hr, hs⟩ := walkLoop_calls_mono heq
          refine ⟨nc ++ rest, ?_, ?_⟩
          · rw [hr, hc]
            simp
          · intro c hcm
            rcases List.mem_append.1 hcm with h | h
            · rw [hsome c h]
              rfl
            · exact hs c h

/-- Master invariant of the edge walk: calls grow monotonically and
only real edges are appended after the root call; every expansion is
justified by the initial stack predicate `R` or a `Continue` call into
the node; expansions are unique; every push is eventually popped; and
pushes of `b` are bounded by the initial allowance `A b` plus the
number of `Continue` calls targeting `b`'s module. -/
theorem walkLoop_master {σ : Type} {g : Graph}
    {vis : σ → Option Nat × Nat → σ × Action} (R : Nat → Prop) (A : Nat → Nat) :
    ∀ {fuel : Nat} {stack disc : List Nat} {st : σ} {tr : WalkTrace}
      {st' : σ} {tr' : WalkTrace},
      walkLoop g vis fuel stack disc st tr = some (st', tr') →
      (∀ n, n ∈ stack →
        R n ∨ ∃ a, ((some a, g.nodes.getD n 0), Action.cont) ∈ tr.calls) →
      (∀ n, n ∈ tr.expanded →
        R n ∨ ∃ a, ((some a, g.nodes.getD n 0), Action.cont) ∈ tr.calls) →
      tr.expanded.Nodup →
      (∀ n, n ∈ tr.expanded → n ∈ disc) →
      (∀ b, cnt b tr.pushes = cnt b tr.pops + cnt b stack) →
      (∀ b, cnt b tr.pushes ≤ A b + contCallsTo g b tr.calls) →
      (∀ n, n ∈ tr.expanded → ∀ x, x ∈ neighbors g n →
        ∃ a, ((some (g.nodes.getD n 0), g.nodes.getD x 0), a) ∈ tr.calls) →
      (∀ n, n ∈ tr'.expanded →
        R n ∨ ∃ a, ((some a, g.nodes.getD n 0), Action.cont) ∈ tr'.calls) ∧
      tr'.expanded.Nodup ∧
      (∀ b, cnt b tr'.pushes = cnt b tr'.pops) ∧
      (∀ b, cnt b tr'.pushes ≤ A b + contCallsTo g b tr'.calls) ∧
      (∀ n, n ∈ tr.expanded → n ∈ tr'.expanded) ∧
      (∀ n, n ∈ stack → n ∈ disc ∨ n ∈ tr'.expanded) ∧
      (∀ n, n ∈ tr'.expanded → ∀ x, x ∈ neighbors g n →
        ∃ a, ((some (g.nodes.getD n 0), g.nodes.getD x 0), a) ∈ tr'.calls)
  | _, [], _, _, _, _, _, heq, hstack, hexp, hnd, hdisc, hbal, hbound, hnbr => by
      simp only [walkLoop, Option.some.injEq, Prod.mk.injEq] at heq
      obtain ⟨-, h2⟩ := heq
      subst h2
      refine ⟨hexp, hnd, fun b => ?_, hbound, fun n h => h, by simp, hnbr⟩
      have := hbal b
      rw [cnt_nil] at this
      omega
  | 0, _ :: _, _, _, _, _, _, heq, _, _, _, _, _, _, _ => by simp [walkLoop] at heq
  | fuel + 1, n :: stack, disc, st, tr, st', tr', heq, hstack, hexp, hnd, hdisc,
      hbal, hbound, hnbr => by
      rw [walkLoop] at heq
      by_cases hd : n ∈ disc
      · rw [if_pos hd] at heq
        have hbal2 : ∀ b, cnt b ({ tr with pops := tr.pops ++ [n] } : WalkTrace).pushes
            = cnt b ({ tr with pops := tr.pops ++ [n] } : WalkTrace).pops + cnt b stack := by
          intro b
          have := hbal b
          rw [cnt_cons] at this
          simp only []
          rw [cnt_append]
          have hone : cnt b [n] = if n = b then 1 else 0 := by simp [cnt]
          rw [hone]
          omega
        obtain ⟨k1, k2, k3, k4, k5, k6, k7⟩ := walkLoop_master R A heq
          (fun n' hn' => hstack n' (List.mem_cons_of_mem _ hn')) hexp hnd hdisc
          hbal2 hbound hnbr
        refine ⟨k1, k2, k3, k4, k5, ?_, k7⟩
        intro n' hn'
        rcases List.mem_cons.1 hn' with h | h
        · exact Or.inl (h ▸ hd)
        · exact k6 n' h
      · rw [if_neg hd] at heq
        cases hout : expandNode g vis (g.nodes.getD n 0) (n :: disc) st
            { tr with pops := tr.pops ++ [n], expanded := tr.expanded ++ [n] }
            (neighbors g n) with
        | mk st2 out2 =>
          obtain ⟨tr2, ps⟩ := out2
          rw [hout] at heq
          obtain ⟨nc, hc, hp, hpop, hexp2, hsome, hall, hcnt, hmem⟩ :=
            expandNode_spec hout
          simp only [] at hc hp hpop hexp2
          have hjustn : R n ∨ ∃ a, ((some a, g.nodes.getD n 0), Action.cont) ∈ tr.calls :=
            hstack n (List.mem_cons_self _ _)
          have hnnotexp : n ∉ tr.expanded := fun h => hd (hdisc n h)
          have H1 : ∀ n', n' ∈ ps.reverse ++ stack →
              R n' ∨ ∃ a, ((some a, g.nodes.getD n' 0), Action.cont) ∈ tr2.calls := by
            intro n' hn'
            rcases List.mem_append.1 hn' with h | h
            · rw [List.mem_reverse] at h
              have hpos : 0 < cnt n' ps := cnt_pos_iff_mem.2 h
              have hle := hcnt n'
              have hposc : 0 < cnt ((some (g.nodes.getD n 0), g.nodes.getD n' 0),
                  Action.cont) nc := by omega
              refine Or.inr ⟨g.nodes.getD n 0, ?_⟩
              rw [hc]
              exact List.mem_append.2 (Or.inr (cnt_pos_iff_mem.1 hposc))
            · rcases hstack n' (List.mem_cons_of_mem _ h) with h2 | ⟨a, ha⟩
              · exact Or.inl h2
              · exact Or.inr ⟨a, by rw [hc]; exact List.mem_append.2 (Or.inl ha)⟩
          have H2 : ∀ n', n' ∈ tr2.expanded →
              R n' ∨ ∃ a, ((some a, g.nodes.getD n' 0), Action.cont) ∈ tr2.calls := by
            intro n' hn'
            rw [hexp2] at hn'
            rcases List.mem_append.1 hn' with h | h
            · rcases hexp n' h with h2 | ⟨a, ha⟩
              · exact Or.inl h2
              · exact Or.inr ⟨a, by rw [hc]; exact List.mem_append.2 (Or.inl ha)⟩
            · rw [List.mem_singleton] at h
              subst h
              rcases hjustn with h2 | ⟨a, ha⟩
              · exact Or.inl h2
              · exact Or.inr ⟨a, by rw [hc]; exact List.mem_append.2 (Or.inl ha)⟩
          have H3 : tr2.expanded.Nodup := by
            rw [hexp2]
            exact hnd.append (List.nodup_singleton n)
              (fun x hx hx' => by
                rw [List.mem_singleton] at hx'
                exact hnnotexp (hx' ▸ hx))
          have H4 : ∀ n', n' ∈ tr2.expanded → n' ∈ n :: disc := by
            intro n' hn'
            rw [hexp2] at hn'
            rcases List.mem_append.1 hn' with h | h
            · exact List.mem_cons_of_mem _ (hdisc n' h)
            · rw [List.mem_singleton] at h
              exact h ▸ List.mem_cons_self _ _
          have H5 : ∀ b, cnt b tr2.pushes = cnt b tr2.pops + cnt b (ps.reverse ++ stack) := by
            intro b
            rw [hp, hpop]
            rw [cnt_append, cnt_append, cnt_append, cnt_reverse]
            have := hbal b
            rw [cnt_cons] at this
            have hone : cnt b [n] = if n = b then 1 else 0 := by simp [cnt]
            rw [hone]
            omega
          have H6 : ∀ b, cnt b tr2.pushes ≤ A b + contCallsTo g b tr2.calls := by
            intro b
            rw [hp, hc, cnt_append]
            simp only [contCallsTo, List.filter_append, List.length_append]
            have h1 := hbound b
            simp only [contCallsTo] at h1
            have h2 : cnt b ps ≤ (nc.filter (fun c =>
                c.1.1.isSome && (c.1.2 == g.nodes.getD b 0)
                  && (c.2 == Action.cont))).length := by
              refine le_trans (hcnt b) (cnt_le_filter_length ?_ nc)
              simp
            omega
          have H7 : ∀ n', n' ∈ tr2.expanded → ∀ x, x ∈ neighbors g n' →
              ∃ a, ((some (g.nodes.getD n' 0), g.nodes.getD x 0), a) ∈ tr2.calls := by
            intro n' hn' x hx
            rw [hexp2] at hn'
            rcases List.mem_append.1 hn' with h | h
            · obtain ⟨a, ha⟩ := hnbr n' h x hx
              exact ⟨a, by rw [hc]; exact List.mem_append.2 (Or.inl ha)⟩
            · rw [List.mem_singleton] at h
              subst h
              obtain ⟨a, ha⟩ := hall x hx
              exact ⟨a, by rw [hc]; exact List.mem_append.2 (Or.inr ha)⟩
          obtain ⟨k1, k2, k3, k4, k5, k6, k7⟩ :=
            walkLoop_master R A heq H1 H2 H3 H4 H5 H6 H7
          refine ⟨k1, k2, k3, k4, ?_, ?_, k7⟩
          · intro n' hn'
            exact k5 n' (by rw [hexp2]; exact List.mem_append.2 (Or.inl hn'))
          · intro n' hn'
            rcases List.mem_cons.1 hn' with h | h
            · subst h
              exact Or.inr (k5 n' (by rw [hexp2]; simp))
            · rcases k6 n' (List.mem_append.2 (Or.inr h)) with h2 | h2
              · rcases List.mem_cons.1 h2 with h3 | h3
                · subst h3
                  exact Or.inr (k5 n' (by rw [hexp2]; simp))
                · exact Or.inl h3
              · exact Or.inr h2

theorem cnt_singleton {α : Type} [DecidableEq α] (v a : α) :
    cnt v [a] = if a = v then 1 else 0 := by simp [cnt]

/-- C4: in `traverse_edges_from_entry` the first visitor invocation is
exactly the synthetic root edge `(None, entry)` and precedes every
graph edge (all later invocations carry a real parent); and a node's
outgoing edges are visited only if the node is the entry node or some
walked edge into it returned `Continue` — so if every edge into a
non-entry node is skipped, its outgoing edges are never visited. -/
theorem claim_walk_root_first_and_skip_prunes {σ : Type} (g : Graph)
    (fuel entry : Nat) (vis : σ → Option Nat × Nat → σ × Action) (st0 : σ)
    (st' : σ) (tr : WalkTrace)
    (h : traverseEdges g fuel entry vis st0 = some (st', tr)) :
    tr.calls.head?.map Prod.fst = some (none, entry) ∧
    (∀ c, c ∈ tr.calls.tail → c.1.1.isSome) ∧
    (∀ eidx, g.entries.lookup entry = some eidx →
      ∀ b, b ∈ tr.expanded →
        b = eidx ∨ ∃ a, ((some a, g.nodes.getD b 0), Action.cont) ∈ tr.calls) := by
  rw [traverseEdges] at h
  cases hlk : g.entries.lookup entry with
  | none => rw [hlk] at h; exact absurd h (by simp)
  | some eidx =>
    simp only [hlk] at h
    obtain ⟨rest, hr, hrs⟩ := walkLoop_calls_mono h
    have H1 : ∀ n, n ∈ [eidx] → n = eidx ∨
        ∃ a : Nat, (((some a : Option Nat), g.nodes.getD n 0), Action.cont)
          ∈ [((none, entry), (vis st0 (none, entry)).2)] :=
      fun n hn => Or.inl (List.mem_singleton.1 hn)
    have H2 : ∀ n, n ∈ ([] : List Nat) → n = eidx ∨
        ∃ a : Nat, (((some a : Option Nat), g.nodes.getD n 0), Action.cont)
          ∈ [((none, entry), (vis st0 (none, entry)).2)] :=
      fun n hn => absurd hn (List.not_mem_nil n)
    have H3 : ([] : List Nat).Nodup := List.nodup_nil
    have H4 : ∀ n, n ∈ ([] : List Nat) → n ∈ ([] : List Nat) := fun n hn => hn
    have H5 : ∀ b, cnt b [eidx] = cnt b ([] : List Nat) + cnt b [eidx] :=
      fun b => by rw [cnt_nil]; omega
    have H6 : ∀ b, cnt b [eidx] ≤ (if b = eidx then 1 else 0)
        + contCallsTo g b [((none, entry), (vis st0 (none, entry)).2)] := by
      intro b
      rw [cnt_singleton]
      by_cases hbe : b = eidx
      · simp [hbe]
      · rw [if_neg (fun hx : eidx = b => hbe hx.symm), if_neg hbe]
        omega
    have H7 : ∀ n, n ∈ ([] : List Nat) → ∀ x, x ∈ neighbors g n →
        ∃ a : Action, (((some (g.nodes.getD n 0) : Option Nat), g.nodes.getD x 0), a)
          ∈ [((none, entry), (vis st0 (none, entry)).2)] :=
      fun n hn => absurd hn (List.not_mem_nil n)
    obtain ⟨k1, -, -, -, -, -, -⟩ :=
      walkLoop_master (fun b => b = eidx) (fun b => if b = eidx then 1 else 0)
        h H1 H2 H3 H4 H5 H6 H7
    refine ⟨?_, ?_, ?_⟩
    · rw [hr]
      simp
    · intro c hc
      rw [hr] at hc
      simp only [List.singleton_append, List.tail_cons] at hc
      exact hrs c hc
    · intro eidx' heq' b hb
      have : eidx = eidx' := by injection heq'
      subst this
      exact k1 b hb

/-- C5 (amended): during one `traverse_edges_from_entry` call each node
is expanded (its outgoing edges visited) at most once, every push is
eventually popped an equal number of times, and a node can be pushed at
most once per `Continue` call targeting its module (plus once for being
the entry) — but, as the counterexample shows, it can be pushed and
popped more than once, while the visitor may run once per incoming
walked edge. -/
theorem claim_push_pop_amended {σ : Type} (g : Graph)
    (fuel entry : Nat) (vis : σ → Option Nat × Nat → σ × Action) (st0 : σ)
    (st' : σ) (tr : WalkTrace)
    (h : traverseEdges g fuel entry vis st0 = some (st', tr)) :
    tr.expanded.Nodup ∧
    (∀ b, cnt b tr.pushes = cnt b tr.pops) ∧
    (∀ eidx, g.entries.lookup entry = some eidx →
      ∀ b, cnt b tr.pushes ≤ (if b = eidx then 1 else 0) + contCallsTo g b tr.calls) := by
  rw [traverseEdges] at h
  cases hlk : g.entries.lookup entry with
  | none => rw [hlk] at h; exact absurd h (by simp)
  | some eidx =>
    simp only [hlk] at h
    have H1 : ∀ n, n ∈ [eidx] → n = eidx ∨
        ∃ a : Nat, (((some a : Option Nat), g.nodes.getD n 0), Action.cont)
          ∈ [((none, entry), (vis st0 (none, entry)).2)] :=
      fun n hn => Or.inl (List.mem_singleton.1 hn)
    have H2 : ∀ n, n ∈ ([] : List Nat) → n = eidx ∨
        ∃ a : Nat, (((some a : Option Nat), g.nodes.getD n 0), Action.cont)
          ∈ [((none, entry), (vis st0 (none, entry)).2)] :=
      fun n hn => absurd hn (List.not_mem_nil n)
    have H5 : ∀ b, cnt b [eidx] = cnt b ([] : List Nat) + cnt b [eidx] :=
      fun b => by rw [cnt_nil]; omega
    have H6 : ∀ b, cnt b [eidx] ≤ (if b = eidx then 1 else 0)
        + contCallsTo g b [((none, entry), (vis st0 (none, entry)).2)] := by
      intro b
      rw [cnt_singleton]
      by_cases hbe : b = eidx
      · simp [hbe]
      · rw [if_neg (fun hx : eidx = b => hbe hx.symm), if_neg hbe]
        omega
    have H7 : ∀ n, n ∈ ([] : List Nat) → ∀ x, x ∈ neighbors g n →
        ∃ a : Action, (((some (g.nodes.getD n 0) : Option Nat), g.nodes.getD x 0), a)
          ∈ [((none, entry), (vis st0 (none, entry)).2)] :=
      fun n hn => absurd hn (List.not_mem_nil n)
    obtain ⟨-, k2, k3, k4, -, -, -⟩ :=
      walkLoop_master (fun b => b = eidx) (fun b => if b = eidx then 1 else 0)
        h H1 H2 List.nodup_nil (fun n hn => hn) H5 H6 H7
    refine ⟨k2, k3, ?_⟩
    intro eidx' heq' b
    have : eidx = eidx' := by injection heq'
    subst this
    exact k4 b

/-- C10: the action returned by the visitor for the synthetic root edge
is discarded; even when it is `Skip`, the entry node is still expanded
and the visitor is invoked for every one of its outgoing edges. -/
theorem claim_root_skip_still_expands {σ : Type} (g : Graph) (fuel entry : Nat)
    (vis : σ → Option Nat × Nat → σ × Action) (st0 : σ) (st' : σ)
    (tr : WalkTrace) (eidx : Nat)
    (h : traverseEdges g fuel entry vis st0 = some (st', tr))
    (heidx : g.entries.lookup entry = some eidx)
    (hskip : (vis st0 (none, entry)).2 = Action.skip) :
    eidx ∈ tr.expanded ∧
    ∀ e, e ∈ g.edges → e.1 = eidx →
      ∃ a, ((some (g.nodes.getD eidx 0), g.nodes.getD e.2 0), a) ∈ tr.calls := by
  rw [traverseEdges] at h
  simp only [heidx] at h
  have H1 : ∀ n, n ∈ [eidx] → n = eidx ∨
      ∃ a : Nat, (((some a : Option Nat), g.nodes.getD n 0), Action.cont)
        ∈ [((none, entry), (vis st0 (none, entry)).2)] :=
    fun n hn => Or.inl (List.mem_singleton.1 hn)
  have H2 : ∀ n, n ∈ ([] : List Nat) → n = eidx ∨
      ∃ a : Nat, (((some a : Option Nat), g.nodes.getD n 0), Action.cont)
        ∈ [((none, entry), (vis st0 (none, entry)).2)] :=
    fun n hn => absurd hn (List.not_mem_nil n)
  have H5 : ∀ b, cnt b [eidx] = cnt b ([] : List Nat) + cnt b [eidx] :=
    fun b => by rw [cnt_nil]; omega
  have H6 : ∀ b, cnt b [eidx] ≤ (if b = eidx then 1 else 0)
      + contCallsTo g b [((none, entry), (vis st0 (none, entry)).2)] := by
    intro b
    rw [cnt_singleton]
    by_cases hbe : b = eidx
    · simp [hbe]
    · rw [if_neg (fun hx : eidx = b => hbe hx.symm), if_neg hbe]
      omega
  have H7 : ∀ n, n ∈ ([] : List Nat) → ∀ x, x ∈ neighbors g n →
      ∃ a : Action, (((some (g.nodes.getD n 0) : Option Nat), g.nodes.getD x 0), a)
        ∈ [((none, entry), (vis st0 (none, entry)).2)] :=
    fun n hn => absurd hn (List.not_mem_nil n)
  obtain ⟨-, -, -, -, -, k6, k7⟩ :=
    walkLoop_master (fun b => b = eidx) (fun b => if b = eidx then 1 else 0)
      h H1 H2 List.nodup_nil (fun n hn => hn) H5 H6 H7
  have hexp : eidx ∈ tr.expanded := by
    rcases k6 eidx (List.mem_singleton.2 rfl) with h2 | h2
    · exact absurd h2 (List.not_mem_nil eidx)
    · exact h2
  refine ⟨hexp, fun e he he1 => ?_⟩
  have hnb : e.2 ∈ neighbors g eidx := by
    rw [neighbors, List.mem_reverse]
    exact List.mem_map.2 ⟨e, List.mem_filter.2 ⟨he, by simp [he1]⟩, rfl⟩
  exact k7 eidx hexp e.2 hnb

/-- Diamond-with-detour graph: entry 0 → 1; 1 → 3 and 1 → 2; 3 → 2.
With petgraph's reverse-insertion neighbor order, node 3 is popped
while 2 is still on the stack, so 2 is pushed (and popped) twice. -/
def gC5 : Graph :=
  { nodes := [0, 1, 2, 3], edges := [(0, 1), (1, 3), (1, 2), (3, 2)], entries := [(0, 0)] }

/-- Visitor that always continues and keeps no state. -/
def cvCont : Unit → Option Nat × Nat → Unit × Action := fun _ _ => ((), Action.cont)

/-- The trace of walking `gC5` from entry 0 with `cvCont`. -/
def walkC5tr : WalkTrace :=
  { calls := [((none, 0), Action.cont), ((some 0, 1), Action.cont),
      ((some 1, 2), Action.cont), ((some 1, 3), Action.cont),
      ((some 3, 2), Action.cont)]
    pushes := [0, 1, 2, 3, 2]
    pops := [0, 1, 3, 2, 2]
    expanded := [0, 1, 3, 2] }

theorem claim_walk_root_first_and_skip_prunes_witness :
    walkC5tr.calls.head?.map Prod.fst = some (none, 0) ∧
    (3 = 0 ∨ ∃ a : Nat, (((some a : Option Nat), gC5.nodes.getD 3 0), Action.cont)
      ∈ walkC5tr.calls) :=
  ⟨(claim_walk_root_first_and_skip_prunes gC5 10 0 cvCont () () walkC5tr (by decide)).1,
   (claim_walk_root_first_and_skip_prunes gC5 10 0 cvCont () () walkC5tr
      (by decide)).2.2 0 (by decide) 3 (by decide)⟩

/-- C5 as stated is false: in the walk of `gC5` node 2 is pushed onto
the stack twice and popped twice. -/
theorem claim_single_push_pop_counterexample :
    traverseEdges gC5 10 0 cvCont () = some ((), walkC5tr) ∧
    cnt 2 walkC5tr.pushes = 2 ∧ cnt 2 walkC5tr.pops = 2 := by decide

theorem claim_push_pop_amended_witness :
    walkC5tr.expanded.Nodup ∧ cnt 2 walkC5tr.pushes = cnt 2 walkC5tr.pops :=
  ⟨(claim_push_pop_amended gC5 10 0 cvCont () () walkC5tr (by decide)).1,
   (claim_push_pop_amended gC5 10 0 cvCont () () walkC5tr (by decide)).2.1 2⟩

/-- Two-node graph keyed by modules 7 → 8. -/
def gC10 : Graph := { nodes := [7, 8], edges := [(0, 1)], entries := [(7, 0)] }

/-- Visitor that returns `Skip` on the synthetic root edge and
`Continue` on every real edge. -/
def cvSkipRoot : Unit → Option Nat × Nat → Unit × Action :=
  fun _ e => ((), match e.1 with | none => Action.skip | some _ => Action.cont)

/-- The trace of walking `gC10` from entry 7 with `cvSkipRoot`: the
root `Skip` is discarded and the edge out of the entry is visited. -/
def trC10 : WalkTrace :=
  { calls := [((none, 7), Action.skip), ((some 7, 8), Action.cont)]
    pushes := [0, 1]
    pops := [0, 1]
    expanded := [0, 1] }

theorem claim_root_skip_still_expands_witness :
    0 ∈ trC10.expanded ∧
    ∃ a, (((some (gC10.nodes.getD 0 0) : Option Nat), gC10.nodes.getD 1 0), a)
      ∈ trC10.calls :=
  ⟨(claim_root_skip_still_expands gC10 10 7 cvSkipRoot () () trC10 0
      (by decide) (by decide) (by decide)).1,
   (claim_root_skip_still_expands gC10 10 7 cvSkipRoot () () trC10 0
      (by decide) (by decide) (by decide)).2 (0, 1) (by decide) (by decide)⟩

/-! ### Views: dynamic imports, server actions, client references -/

/-- `FxIndexMap::insert`: replaces in place when the key exists
(keeping its position), appends otherwise. -/
def indexMapInsert {α : Type} (l : List (Nat × α)) (k : Nat) (v : α) : List (Nat × α) :=
  if l.any (fun p => p.1 == k) then
    l.map (fun p => if p.1 == k then (k, v) else p)
  else l ++ [(k, v)]

/-- One step of the collection loop in the whole-app branches: insert
the module's annotation, if any, into the result map. -/
def insertStep {α : Type} (data : List (Nat × α)) (result : List (Nat × α))
    (m : Nat) : List (Nat × α) :=
  match data.lookup m with
  | some d => indexMapInsert result m d
  | none => result

/-- `NextDynamicGraph`: the `is_single_page` flag, the underlying
graph, and the `DynamicImports` annotation map (payloads opaque). -/
structure NextDynamicGraph where
  is_single_page : Bool
  graph : Graph
  data : List (Nat × Nat)
deriving DecidableEq, Repr

/-- `NextDynamicGraph::get_next_dynamic_imports_for_endpoint`: the
single-page fast path returns the full annotation map without looking
at `entry`; otherwise the reachable nodes are collected with
`traverse_from_entry` and the annotated ones inserted, in visit order,
into a fresh `FxIndexMap`. -/
def getNextDynamicImportsForEndpoint (v : NextDynamicGraph) (fuel entry : Nat) :
    Option (List (Nat × Nat)) :=
  if v.is_single_page then some v.data
  else
    (traverseFromEntry v.graph fuel entry).map (fun visit =>
      visit.foldl (insertStep v.data) [])

/-- `next_manifests::ActionLayer`. -/
inductive ActionLayer
  | rsc
  | actionBrowser
deriving DecidableEq, Repr

/-- `ServerActionsGraph`: module → (layer, list of (action hash,
action name)). -/
structure ServerActionsGraph where
  is_single_page : Bool
  graph : Graph
  data : List (Nat × (ActionLayer × List (Nat × Nat)))
deriving DecidableEq, Repr

/-- `ServerActionsGraph::get_server_actions_for_endpoint`.  In the
whole-app branch the filtered per-module map is a
`std::collections::HashMap`, whose iteration order is unspecified; the
embedding therefore takes an iteration `schedule` — an arbitrary
reordering applied to the collected entries — so every admissible
execution corresponds to some schedule.  `toRsc` models
`to_rsc_context` for non-RSC layers. -/
def getServerActionsForEndpoint (v : ServerActionsGraph) (toRsc : Nat → Nat)
    (schedule : List (Nat × (ActionLayer × List (Nat × Nat)))
      → List (Nat × (ActionLayer × List (Nat × Nat))))
    (fuel entry : Nat) : Option (List (Nat × (ActionLayer × Nat × Nat))) :=
  (if v.is_single_page then some v.data
   else
    (traverseFromEntry v.graph fuel entry).map (fun visit =>
      schedule (visit.foldl (insertStep v.data) []))).map
    (fun data => data.flatMap (fun md => md.2.2.map (fun hn =>
      (hn.1, (md.2.1, hn.2, if md.2.1 = ActionLayer.rsc then md.1 else toRsc md.1)))))

/-- `ClientReferenceMapType` of `client_references.rs`: the downcast
payloads are the module itself (plus the SSR module for the
ecmascript variant). -/
inductive CRMapType
  | ecmascriptClientReference (module ssr_module : Nat)
  | cssClientReference (module : Nat)
  | serverComponent (module : Nat)
deriving DecidableEq, Repr

/-- What the three `try_downcast_type` tests of `map_client_references`
can report for a module, in their fixed priority order. -/
inductive CRKind
  | ecma (ssr : Nat)
  | css
  | sc
deriving DecidableEq, Repr

def CRKind.toMapType : CRKind → Nat → CRMapType
  | .ecma ssr, m => .ecmascriptClientReference m ssr
  | .css, m => .cssClientReference m
  | .sc, m => .serverComponent m

/-- `map_client_references`: one classification attempt per node of the
graph; unclassified modules are absent from the map. -/
def mapClientReferences (classify : Nat → Option CRKind) (g : Graph) :
    List (Nat × CRMapType) :=
  g.nodes.filterMap (fun m => (classify m).map (fun k => (m, k.toMapType m)))

/-- `next_core`'s `ClientReferenceType` (payload modules only). -/
inductive ClientReferenceType
  | ecmascriptClientReference (parent_module module : Nat)
  | cssClientReference (module : Nat)
deriving DecidableEq, Repr

structure ClientReference where
  server_component : Option Nat
  ty : ClientReferenceType
deriving DecidableEq, Repr

structure ClientReferenceGraphResult where
  client_references : List ClientReference
  client_references_by_server_component : List (Option Nat × List Nat)
  server_utils : List Nat
  server_component_entries : List Nat
deriving DecidableEq, Repr, Inhabited

/-- The mutable state of the client-references walk: the accumulated
records, the ordered per-boundary buckets, and the `state_map`
(module → nearest server-component boundary). -/
structure CRState where
  client_references : List ClientReference
  client_references_by_server_component : List (Option Nat × List Nat)
  state_map : List (Nat × Option Nat)
deriving DecidableEq, Repr

/-- `FxIndexMap::entry(k).or_insert_with(Vec::new).push(v)`: appends to
the bucket in place when the key exists, else appends a new bucket at
the end. -/
def pushBucket (l : List (Option Nat × List Nat)) (k : Option Nat) (v : Nat) :
    List (Option Nat × List Nat) :=
  if l.any (fun p => p.1 == k) then
    l.map (fun p => if p.1 == k then (p.1, p.2 ++ [v]) else p)
  else l ++ [(k, [v])]

/-- The visitor closure of
`ClientReferencesGraph::get_client_references_for_endpoint`
(module_graph.rs lines 481-527). -/
def crVisitor (data : List (Nat × CRMapType)) (st : CRState)
    (edge : Option Nat × Nat) : CRState × Action :=
  match edge with
  | (none, _) => (st, Action.cont)
  | (some parent_module, module) =>
    let module_type := data.lookup module
    let parent_server_component :=
      match module_type with
      | some (CRMapType.serverComponent m) => some m
      | _ => (st.state_map.lookup parent_module).join
    let st1 : CRState :=
      { st with state_map := (module, parent_server_component) :: st.state_map }
    match module_type with
    | some (CRMapType.ecmascriptClientReference m ssr) =>
      ({ st1 with
          client_references := st1.client_references
            ++ [{ server_component := parent_server_component
                  ty := ClientReferenceType.ecmascriptClientReference parent_module m }]
          client_references_by_server_component :=
            pushBucket st1.client_references_by_server_component
              parent_server_component ssr }, Action.skip)
    | some (CRMapType.cssClientReference m) =>
      ({ st1 with
          client_references := st1.client_references
            ++ [{ server_component := parent_server_component
                  ty := ClientReferenceType.cssClientReference m }] }, Action.skip)
    | _ => (st1, Action.cont)

structure ClientReferencesGraph where
  is_single_page : Bool
  graph : Graph
  data : List (Nat × CRMapType)
deriving DecidableEq, Repr

/-- The initial accumulator: "Make sure None (for the various internal
next/dist/esm/client/components/*) is listed first". -/
def crInitState : CRState :=
  { client_references := []
    client_references_by_server_component := [(none, [])]
    state_map := [] }

/-- `ClientReferencesGraph::get_client_references_for_endpoint`:
walks the edges from `entry` with `crVisitor` (regardless of
`is_single_page`) and attaches the `find_server_entries` results. -/
def getClientReferencesForEndpoint (env : Env) (v : ClientReferencesGraph)
    (fuel entry : Nat) : Option ClientReferenceGraphResult :=
  (traverseEdges v.graph fuel entry (crVisitor v.data) crInitState).map
    (fun r =>
      { client_references := r.1.client_references
        client_references_by_server_component :=
          r.1.client_references_by_server_component
        server_utils := env.serverUtils entry
        server_component_entries := env.serverComponentEntries entry })

/-- Appends `vs` to the bucket of `k`, creating the bucket at the end
when absent (bucket lists are concatenated). -/
def extendBucket (l : List (Option Nat × List Nat)) (k : Option Nat) (vs : List Nat) :
    List (Option Nat × List Nat) :=
  if l.any (fun p => p.1 == k) then
    l.map (fun p => if p.1 == k then (p.1, p.2 ++ vs) else p)
  else l ++ [(k, vs)]

/-- Modelled from the spec: `ClientReferenceGraphResult::extend` is
defined in `next_core` (outside this crate); per §4.6 the merge "takes
the first result and extends it with every subsequent result's records
and per-boundary buckets (bucket lists are concatenated)". -/
def extendResult (a b : ClientReferenceGraphResult) : ClientReferenceGraphResult :=
  { client_references := a.client_references ++ b.client_references
    client_references_by_server_component :=
      b.client_references_by_server_component.foldl
        (fun acc kv => extendBucket acc kv.1 kv.2)
        a.client_references_by_server_component
    server_utils := a.server_utils ++ b.server_utils
    server_component_entries := a.server_component_entries ++ b.server_component_entries }

/-- `ReducedGraphs`: one-or-many views of each kind. -/
structure ReducedGraphs where
  next_dynamic : List NextDynamicGraph
  server_actions : List ServerActionsGraph
  client_references : List ClientReferencesGraph

/-- `try_join` over a list of fallible queries. -/
def mapOption {α β : Type} (f : α → Option β) : List α → Option (List β)
  | [] => some []
  | a :: l =>
    match f a with
    | none => none
    | some b => (mapOption f l).map (fun bs => b :: bs)

/-- `ReducedGraphs::get_client_references_for_endpoint`: a single view
delegates; otherwise all views are queried and the results merged by
`extend` starting from the first (`results[0]` panics on an empty view
list, modelled as `none`). -/
def reducedGetClientReferencesForEndpoint (env : Env) (r : ReducedGraphs)
    (fuel entry : Nat) : Option ClientReferenceGraphResult :=
  match r.client_references with
  | [g] => getClientReferencesForEndpoint env g fuel entry
  | gs =>
    match mapOption (fun g => getClientReferencesForEndpoint env g fuel entry) gs with
    | none => none
    | some [] => none
    | some (r0 :: rs) => some (rs.foldl extendResult r0)

/-- A single-page dynamic-imports view over a one-node graph whose only
entry is module 5. -/
def vC7 : NextDynamicGraph :=
  { is_single_page := true
    graph := { nodes := [5], edges := [], entries := [(5, 0)] }
    data := [(5, 7)] }

/-- C7 as stated is false: on the single-page fast path the
dynamic-imports query never consults the entries map, so querying the
absent entry 9 silently returns the full, unfiltered annotation map
instead of a failure. -/
theorem claim_absent_entry_fails_counterexample :
    vC7.graph.entries.lookup 9 = none ∧
    getNextDynamicImportsForEndpoint vC7 10 9 = some vC7.data := by decide

/-- C7 (amended): whole-app (non-single-page) dynamic-import and
server-action queries, and the client-references query regardless of
the flag, fail when the entry is absent from the entries map; but the
single-page dynamic-import and server-action fast paths never fail on
an absent entry — they return the full annotation data unfiltered. -/
theorem claim_absent_entry_behavior (env : Env) (fuel entry : Nat) :
    (∀ v : NextDynamicGraph, v.is_single_page = false →
      v.graph.entries.lookup entry = none →
      getNextDynamicImportsForEndpoint v fuel entry = none) ∧
    (∀ (v : ServerActionsGraph) (toRsc : Nat → Nat)
        (schedule : List (Nat × (ActionLayer × List (Nat × Nat)))
          → List (Nat × (ActionLayer × List (Nat × Nat)))),
      v.is_single_page = false →
      v.graph.entries.lookup entry = none →
      getServerActionsForEndpoint v toRsc schedule fuel entry = none) ∧
    (∀ v : ClientReferencesGraph, v.graph.entries.lookup entry = none →
      getClientReferencesForEndpoint env v fuel entry = none) ∧
    (∀ v : NextDynamicGraph, v.is_single_page = true →
      getNextDynamicImportsForEndpoint v fuel entry = some v.data) ∧
    (∀ (v : ServerActionsGraph) (toRsc : Nat → Nat)
        (schedule : List (Nat × (ActionLayer × List (Nat × Nat)))
          → List (Nat × (ActionLayer × List (Nat × Nat)))),
      v.is_single_page = true →
      (getServerActionsForEndpoint v toRsc schedule fuel entry).isSome) := by
  refine ⟨?_, ?_, ?_, ?_, ?_⟩
  · intro v h1 h2
    simp [getNextDynamicImportsForEndpoint, h1, traverseFromEntry, h2]
  · intro v toRsc schedule h1 h2
    simp [getServerActionsForEndpoint, h1, traverseFromEntry, h2]
  · intro v h
    simp [getClientReferencesForEndpoint, traverseEdges, h]
  · intro v h
    simp [getNextDynamicImportsForEndpoint, h]
  · intro v toRsc schedule h
    simp [getServerActionsForEndpoint, h]

def vC7b : NextDynamicGraph :=
  { is_single_page := false
    graph := { nodes := [5], edges := [], entries := [(5, 0)] }
    data := [(5, 7)] }

def envC7 : Env :=
  { refs := fun _ => []
    isMapExt := fun _ => false
    serverUtils := fun _ => []
    serverComponentEntries := fun _ => [] }

def vC7c : ClientReferencesGraph :=
  { is_single_page := true
    graph := { nodes := [5], edges := [], entries := [(5, 0)] }
    data := [] }

theorem claim_absent_entry_behavior_witness :
    getNextDynamicImportsForEndpoint vC7b 10 9 = none ∧
    getClientReferencesForEndpoint envC7 vC7c 10 9 = none ∧
    getNextDynamicImportsForEndpoint vC7 10 9 = some vC7.data :=
  ⟨(claim_absent_entry_behavior envC7 10 9).1 vC7b (by decide) (by decide),
   (claim_absent_entry_behavior envC7 10 9).2.2.1 vC7c (by decide),
   (claim_absent_entry_behavior envC7 10 9).2.2.2.1 vC7 (by decide)⟩

/-! ### DFS facts for the endpoint-filtering queries -/

theorem lookup_mem {α β : Type} [BEq α] [LawfulBEq α] {a : α} {b : β} :
    ∀ {l : List (α × β)}, List.lookup a l = some b → (a, b) ∈ l
  | [], h => by simp [List.lookup] at h
  | (k, v) :: t, h => by
      rw [List.lookup] at h
      cases hab : a == k with
      | true =>
        rw [hab] at h
        simp only [Option.some.injEq] at h
        subst h
        have : a = k := eq_of_beq hab
        subst this
        exact List.mem_cons_self _ _
      | false =>
        rw [hab] at h
        exact List.mem_cons_of_mem _ (lookup_mem h)

theorem mem_neighbors_bound {g : Graph}
    (hedge : ∀ e, e ∈ g.edges → e.2 < g.nodes.length) {n x : Nat}
    (h : x ∈ neighbors g n) : x < g.nodes.length := by
  rw [neighbors, List.mem_reverse] at h
  obtain ⟨e, he, hex⟩ := List.mem_map.1 h
  exact hex ▸ hedge e (List.mem_filter.1 he).1

/-- The DFS pop order contains no duplicates, only in-bounds node
indices, and nothing already discovered. -/
theorem dfsLoop_spec {g : Graph}
    (hedge : ∀ e, e ∈ g.edges → e.2 < g.nodes.length) :
    ∀ {fuel : Nat} {stack disc : List Nat} {order : List Nat},
      dfsLoop g fuel stack disc = some order →
      (∀ n, n ∈ stack → n < g.nodes.length) →
      order.Nodup ∧ (∀ n, n ∈ order → n < g.nodes.length ∧ n ∉ disc)
  | _, [], _, order, heq, _ => by
      simp only [dfsLoop, Option.some.injEq] at heq
      subst heq
      exact ⟨List.nodup_nil, by simp⟩
  | 0, _ :: _, _, _, heq, _ => by simp [dfsLoop] at heq
  | fuel + 1, n :: stack, disc, order, heq, hstack => by
      rw [dfsLoop] at heq
      by_cases hd : n ∈ disc
      · rw [if_pos hd] at heq
        exact dfsLoop_spec hedge heq
          (fun n' hn' => hstack n' (List.mem_cons_of_mem _ hn'))
      · rw [if_neg hd] at heq
        cases hrec : dfsLoop g fuel
            (((neighbors g n).filter (fun s => !(s ∈ n :: disc : Bool))).reverse
              ++ stack) (n :: disc) with
        | none => rw [hrec] at heq; simp at heq
        | some rest =>
          rw [hrec] at heq
          have heq2 : n :: rest = order := by simpa using heq
          subst heq2
          obtain ⟨h1, h2⟩ := dfsLoop_spec hedge hrec (fun n' hn' => by
            rcases List.mem_append.1 hn' with h | h
            · rw [List.mem_reverse] at h
              exact mem_neighbors_bound hedge (List.mem_filter.1 h).1
            · exact hstack n' (List.mem_cons_of_mem _ h))
          refine ⟨List.Nodup.cons ?_ h1, ?_⟩
          · intro hmem
            exact (h2 n hmem).2 (List.mem_cons_self _ _)
          · intro n' hn'
            rcases List.mem_cons.1 hn' with h | h
            · subst h
              exact ⟨hstack n' (List.mem_cons_self _ _), hd⟩
            · obtain ⟨hb, hnd⟩ := h2 n' h
              exact ⟨hb, fun hx => hnd (List.mem_cons_of_mem _ hx)⟩

/-- The module visit order of `traverse_from_entry` has no duplicate
modules (on a well-formed graph). -/
theorem traverseFromEntry_nodup {g : Graph} {fuel entry : Nat} {visit : List Nat}
    (hnd : g.nodes.Nodup)
    (hent : ∀ p, p ∈ g.entries → p.2 < g.nodes.length)
    (hedge : ∀ e, e ∈ g.edges → e.2 < g.nodes.length)
    (h : traverseFromEntry g fuel entry = some visit) :
    visit.Nodup := by
  rw [traverseFromEntry] at h
  cases hlk : g.entries.lookup entry with
  | none => rw [hlk] at h; simp at h
  | some eidx =>
    simp only [hlk] at h
    cases hdfs : dfsLoop g fuel [eidx] [] with
    | none => rw [hdfs] at h; simp at h
    | some idxs =>
      rw [hdfs] at h
      have heidx : eidx < g.nodes.length := hent (entry, eidx) (lookup_mem hlk)
      obtain ⟨h1, h2⟩ := dfsLoop_spec hedge hdfs (fun n hn => by
        rw [List.mem_singleton] at hn
        exact hn ▸ heidx)
      have hv : idxs.map (fun i => g.nodes.getD i 0) = visit := by simpa using h
      rw [← hv]
      refine List.Nodup.map_on ?_ h1
      intro x hx y hy hxy
      exact nodup_get?_inj hnd
        (get?_of_lt_getD (h2 x hx).1)
        (by rw [get?_of_lt_getD (h2 y hy).1, hxy])

theorem indexMapInsert_fresh {α : Type} {l : List (Nat × α)} {k : Nat} (v : α)
    (h : ∀ x, x ∈ l → x.1 ≠ k) :
    indexMapInsert l k v = l ++ [(k, v)] := by
  rw [indexMapInsert, if_neg]
  intro hc
  obtain ⟨p, hp, hpk⟩ := List.any_eq_true.1 hc
  exact h p hp (by simpa using hpk)

/-- Folding `FxIndexMap::insert` over a duplicate-free visit list whose
keys are fresh for the accumulator appends exactly the annotated
entries, in visit order. -/
theorem foldl_insert_filterMap {α : Type} (data : List (Nat × α)) :
    ∀ (visit : List Nat) (acc : List (Nat × α)),
      visit.Nodup →
      (∀ m, m ∈ visit → ∀ x, x ∈ acc → x.1 ≠ m) →
      visit.foldl (insertStep data) acc
      = acc ++ visit.filterMap (fun m => (data.lookup m).map (fun d => (m, d)))
  | [], acc, _, _ => by simp
  | m :: rest, acc, hnd, hfresh => by
      rw [List.foldl_cons]
      cases hlkm : data.lookup m with
      | none =>
        simp only [insertStep, hlkm]
        rw [foldl_insert_filterMap data rest acc (List.Nodup.of_cons hnd)
          (fun m' hm' x hx => hfresh m' (List.mem_cons_of_mem _ hm') x hx)]
        simp [List.filterMap_cons, hlkm]
      | some d =>
        simp only [insertStep, hlkm]
        rw [indexMapInsert_fresh d (fun x hx => hfresh m (List.mem_cons_self _ _) x hx)]
        rw [foldl_insert_filterMap data rest (acc ++ [(m, d)]) (List.Nodup.of_cons hnd)
          (fun m' hm' x hx => by
            rcases List.mem_append.1 hx with h | h
            · exact hfresh m' (List.mem_cons_of_mem _ hm') x h
            · have : x = (m, d) := by simpa using h
              subst this
              exact fun hmm => (List.nodup_cons.1 hnd).1
                ((show m = m' from hmm) ▸ hm'))]
        simp [List.filterMap_cons, hlkm]

/-- C9 (amended): on a whole-app view, the dynamic-imports query
returns exactly the annotation-map entries whose module was visited by
the reachability traversal, keyed in first-encounter order; the
server-actions query filters the same entry set, but collects it into
an unordered `std::collections::HashMap`, so its result is built from
an arbitrary iteration schedule of those entries and no key order is
guaranteed. -/
theorem claim_endpoint_query_content_order :
    (∀ (v : NextDynamicGraph) (fuel entry : Nat) (visit : List Nat),
      v.is_single_page = false →
      v.graph.nodes.Nodup →
      (∀ p, p ∈ v.graph.entries → p.2 < v.graph.nodes.length) →
      (∀ e, e ∈ v.graph.edges → e.2 < v.graph.nodes.length) →
      traverseFromEntry v.graph fuel entry = some visit →
      getNextDynamicImportsForEndpoint v fuel entry
        = some (visit.filterMap (fun m => (v.data.lookup m).map (fun d => (m, d))))) ∧
    (∀ (v : ServerActionsGraph) (toRsc : Nat → Nat)
        (schedule : List (Nat × (ActionLayer × List (Nat × Nat)))
          → List (Nat × (ActionLayer × List (Nat × Nat))))
        (fuel entry : Nat) (visit : List Nat),
      v.is_single_page = false →
      v.graph.nodes.Nodup →
      (∀ p, p ∈ v.graph.entries → p.2 < v.graph.nodes.length) →
      (∀ e, e ∈ v.graph.edges → e.2 < v.graph.nodes.length) →
      traverseFromEntry v.graph fuel entry = some visit →
      getServerActionsForEndpoint v toRsc schedule fuel entry
        = some ((schedule (visit.filterMap
              (fun m => (v.data.lookup m).map (fun d => (m, d))))).flatMap
            (fun md => md.2.2.map (fun hn => (hn.1, (md.2.1, hn.2,
              if md.2.1 = ActionLayer.rsc then md.1 else toRsc md.1)))))) := by
  constructor
  · intro v fuel entry visit h1 hnd hent hedge hv
    have hvn : visit.Nodup := traverseFromEntry_nodup hnd hent hedge hv
    rw [getNextDynamicImportsForEndpoint, if_neg (by rw [h1]; exact Bool.false_ne_true),
      hv, Option.map_some']
    rw [foldl_insert_filterMap v.data visit [] hvn (by simp)]
    rw [List.nil_append]
  · intro v toRsc schedule fuel entry visit h1 hnd hent hedge hv
    have hvn : visit.Nodup := traverseFromEntry_nodup hnd hent hedge hv
    rw [getServerActionsForEndpoint, if_neg (by rw [h1]; exact Bool.false_ne_true),
      hv, Option.map_some']
    rw [foldl_insert_filterMap v.data visit [] hvn (by simp)]
    rw [List.nil_append, Option.map_some']

/-- Whole-app server-actions view: entry module 0 reaches module 1;
both modules carry one action each (hashes 10 and 11). -/
def vC9 : ServerActionsGraph :=
  { is_single_page := false
    graph := { nodes := [0, 1], edges := [(0, 1)], entries := [(0, 0)] }
    data := [(0, (ActionLayer.rsc, [(10, 100)])), (1, (ActionLayer.rsc, [(11, 101)]))] }

/-- The filtered per-module map of `vC9`'s query, in first-encounter
order. -/
def flC9 : List (Nat × (ActionLayer × List (Nat × Nat))) :=
  [(0, (ActionLayer.rsc, [(10, 100)])), (1, (ActionLayer.rsc, [(11, 101)]))]

/-- C9 as stated is false for server actions: the filtered map is a
`std::collections::HashMap`, so the reversed iteration order is an
admissible execution (it is a permutation of the collected entries),
and under it the result's keys come out as [11, 10] although the
traversal first encountered the module carrying hash 10. -/
theorem claim_query_order_counterexample :
    flC9.reverse.Perm flC9 ∧
    traverseFromEntry vC9.graph 10 0 = some [0, 1] ∧
    getServerActionsForEndpoint vC9 (fun m => m) List.reverse 10 0
      = some [(11, (ActionLayer.rsc, 101, 1)), (10, (ActionLayer.rsc, 100, 0))] := by
  decide

/-- Whole-app dynamic-imports view: module 0 reaches module 1; only
module 1 is annotated. -/
def vC9d : NextDynamicGraph :=
  { is_single_page := false
    graph := { nodes := [0, 1], edges := [(0, 1)], entries := [(0, 0)] }
    data := [(1, 7)] }

theorem claim_endpoint_query_content_order_witness :
    getNextDynamicImportsForEndpoint vC9d 10 0
      = some ([0, 1].filterMap (fun m => (vC9d.data.lookup m).map (fun d => (m, d)))) :=
  claim_endpoint_query_content_order.1 vC9d 10 0 [0, 1]
    (by decide) (by decide) (by decide) (by decide) (by decide)

/-! ### State invariants of the edge walk -/

theorem expandNode_state_inv {σ : Type} {g : Graph}
    {vis : σ → Option Nat × Nat → σ × Action} {w : Nat} {disc : List Nat}
    (P : σ → Prop) (hv : ∀ st e, P st → P (vis st e).1) :
    ∀ {succs : List Nat} {st : σ} {tr : WalkTrace} {st' : σ} {tr' : WalkTrace}
      {ps : List Nat},
      expandNode g vis w disc st tr succs = (st', tr', ps) → P st → P st'
  | [], st, tr, st', tr', ps, heq, hp => by
      simp only [expandNode, Prod.mk.injEq] at heq
      exact heq.1 ▸ hp
  | succ :: rest, st, tr, st', tr', ps, heq, hp => by
      rw [expandNode] at heq
      by_cases hcond : succ ∉ disc ∧ (vis st (some w, g.nodes.getD succ 0)).2 = Action.cont
      · rw [if_pos hcond] at heq
        cases hout : expandNode g vis w disc (vis st (some w, g.nodes.getD succ 0)).1
            { tr with
              calls := tr.calls ++ [((some w, g.nodes.getD succ 0),
                (vis st (some w, g.nodes.getD succ 0)).2)]
              pushes := tr.pushes ++ [succ] } rest with
        | mk st2 out2 =>
          rw [hout] at heq
          simp only [Prod.mk.injEq] at heq
          exact heq.1 ▸ expandNode_state_inv P hv hout (hv st _ hp)
      · rw [if_neg hcond] at heq
        exact expandNode_state_inv P hv heq (hv st _ hp)

theorem walkLoop_state_inv {σ : Type} {g : Graph}
    {vis : σ → Option Nat × Nat → σ × Action}
    (P : σ → Prop) (hv : ∀ st e, P st → P (vis st e).1) :
    ∀ {fuel : Nat} {stack disc : List Nat} {st : σ} {tr : WalkTrace}
      {st' : σ} {tr' : WalkTrace},
      walkLoop g vis fuel stack disc st tr = some (st', tr') → P st → P st'
  | _, [], _, _, _, _, _, heq, hp => by
      simp only [walkLoop, Option.some.injEq, Prod.mk.injEq] at heq
      exact heq.1 ▸ hp
  | 0, _ :: _, _, _, _, _, _, heq, _ => by simp [walkLoop] at heq
  | fuel + 1, n :: stack, disc, st, tr, st', tr', heq, hp => by
      rw [walkLoop] at heq
      by_cases hd : n ∈ disc
      · rw [if_pos hd] at heq
        exact walkLoop_state_inv P hv heq hp
      · rw [if_neg hd] at heq
        cases hout : expandNode g vis (g.nodes.getD n 0) (n :: disc) st
            { tr with pops := tr.pops ++ [n], expanded := tr.expanded ++ [n] }
            (neighbors g n) with
        | mk st2 out2 =>
          obtain ⟨tr2, ps⟩ := out2
          rw [hout] at heq
          exact walkLoop_state_inv P hv heq (expandNode_state_inv P hv hout hp)

/-- A visitor-preserved state property holds after any completed
`traverse_edges_from_entry` call (the root invocation included). -/
theorem traverseEdges_state_inv {σ : Type} {g : Graph} {fuel entry : Nat}
    {vis : σ → Option Nat × Nat → σ × Action} {st0 st' : σ} {tr' : WalkTrace}
    (P : σ → Prop) (hv : ∀ st e, P st → P (vis st e).1)
    (heq : traverseEdges g fuel entry vis st0 = some (st', tr'))
    (hp : P st0) : P st' := by
  rw [traverseEdges] at heq
  cases hlk : g.entries.lookup entry with
  | none => rw [hlk] at heq; exact absurd heq (by simp)
  | some eidx =>
    simp only [hlk] at heq
    exact walkLoop_state_inv P hv heq (hv st0 _ hp)

theorem pushBucket_fst_head {l : List (Option Nat × List Nat)} {k : Option Nat}
    {v : Nat} (h : (l.map Prod.fst).head? = some none) :
    ((pushBucket l k v).map Prod.fst).head? = some none := by
  rw [pushBucket]
  by_cases hany : l.any (fun p => p.1 == k) = true
  · rw [if_pos hany]
    have : (l.map (fun p => if p.1 == k then (p.1, p.2 ++ [v]) else p)).map Prod.fst
        = l.map Prod.fst := by
      rw [List.map_map]
      refine List.map_congr_left ?_
      intro p _
      simp only [Function.comp_apply]
      by_cases hp : (p.1 == k) = true
      · rw [if_pos hp]
      · rw [if_neg hp]
    rw [this]
    exact h
  · rw [if_neg hany, List.map_append, List.head?_append]
    rw [h]
    rfl

theorem extendBucket_fst_head {l : List (Option Nat × List Nat)} {k : Option Nat}
    {vs : List Nat} (h : (l.map Prod.fst).head? = some none) :
    ((extendBucket l k vs).map Prod.fst).head? = some none := by
  rw [extendBucket]
  by_cases hany : l.any (fun p => p.1 == k) = true
  · rw [if_pos hany]
    have : (l.map (fun p => if p.1 == k then (p.1, p.2 ++ vs) else p)).map Prod.fst
        = l.map Prod.fst := by
      rw [List.map_map]
      refine List.map_congr_left ?_
      intro p _
      simp only [Function.comp_apply]
      by_cases hp : (p.1 == k) = true
      · rw [if_pos hp]
      · rw [if_neg hp]
    rw [this]
    exact h
  · rw [if_neg hany, List.map_append, List.head?_append]
    rw [h]
    rfl

/-- The nearest-boundary visitor never disturbs the head of the ordered
bucket map. -/
theorem crVisitor_bucket_head (data : List (Nat × CRMapType)) :
    ∀ (st : CRState) (e : Option Nat × Nat),
      ((st.client_references_by_server_component.map Prod.fst).head? = some none) →
      (((crVisitor data st e).1.client_references_by_server_component.map
        Prod.fst).head? = some none) := by
  intro st e hp
  obtain ⟨p, m⟩ := e
  cases p with
  | none => exact hp
  | some parent =>
    rw [crVisitor]
    cases data.lookup m with
    | none => exact hp
    | some ty =>
      cases ty with
      | ecmascriptClientReference m' ssr => exact pushBucket_fst_head hp
      | cssClientReference m' => exact hp
      | serverComponent m' => exact hp

theorem foldl_extendBucket_head :
    ∀ (bs : List (Option Nat × List Nat)) (acc : List (Option Nat × List Nat)),
      (acc.map Prod.fst).head? = some none →
      ((bs.foldl (fun acc kv => extendBucket acc kv.1 kv.2) acc).map Prod.fst).head?
        = some none
  | [], _, h => h
  | kv :: rest, acc, h =>
    foldl_extendBucket_head rest (extendBucket acc kv.1 kv.2) (extendBucket_fst_head h)

theorem extendResult_bucket_head (a b : ClientReferenceGraphResult)
    (h : (a.client_references_by_server_component.map Prod.fst).head? = some none) :
    ((extendResult a b).client_references_by_server_component.map Prod.fst).head?
      = some none :=
  foldl_extendBucket_head b.client_references_by_server_component
    a.client_references_by_server_component h

theorem foldl_extendResult_head :
    ∀ (rs : List ClientReferenceGraphResult) (r0 : ClientReferenceGraphResult),
      (r0.client_references_by_server_component.map Prod.fst).head? = some none →
      (((rs.foldl extendResult r0).client_references_by_server_component.map
        Prod.fst).head?) = some none
  | [], _, h => h
  | b :: rest, r0, h =>
    foldl_extendResult_head rest (extendResult r0 b) (extendResult_bucket_head r0 b h)

/-- C8: in every client-references query result, and in every merged
result of the aggregator, the "no boundary" `None` key is present in
the ordered `byServerComponentBoundary` map and is its first key. -/
theorem claim_none_bucket_first (env : Env) (fuel entry : Nat) :
    (∀ (v : ClientReferencesGraph) (res : ClientReferenceGraphResult),
      getClientReferencesForEndpoint env v fuel entry = some res →
      (res.client_references_by_server_component.map Prod.fst).head? = some none) ∧
    (∀ (r : ReducedGraphs) (res : ClientReferenceGraphResult),
      reducedGetClientReferencesForEndpoint env r fuel entry = some res →
      (res.client_references_by_server_component.map Prod.fst).head? = some none) := by
  have hview : ∀ (v : ClientReferencesGraph) (res : ClientReferenceGraphResult),
      getClientReferencesForEndpoint env v fuel entry = some res →
      (res.client_references_by_server_component.map Prod.fst).head? = some none := by
    intro v res heq
    rw [getClientReferencesForEndpoint] at heq
    cases hte : traverseEdges v.graph fuel entry (crVisitor v.data) crInitState with
    | none => rw [hte] at heq; simp at heq
    | some out =>
      obtain ⟨st, tr⟩ := out
      rw [hte] at heq
      have hres : res.client_references_by_server_component
          = st.client_references_by_server_component := by
        have h2 := heq
        simp only [Option.map_some', Option.some.injEq] at h2
        rw [← h2]
      rw [hres]
      exact traverseEdges_state_inv
        (fun s => ((s.client_references_by_server_component.map Prod.fst).head?
          = some none))
        (crVisitor_bucket_head v.data) hte rfl
  refine ⟨hview, ?_⟩
  intro r res heq
  rw [reducedGetClientReferencesForEndpoint] at heq
  cases hcr : r.client_references with
  | nil =>
    simp only [hcr, mapOption] at heq
    exact absurd heq (by simp)
  | cons g1 gs1 =>
    cases gs1 with
    | nil =>
      simp only [hcr] at heq
      exact hview g1 res heq
    | cons g2 gs2 =>
      simp only [hcr] at heq
      cases hmo : mapOption
          (fun g => getClientReferencesForEndpoint env g fuel entry)
          (g1 :: g2 :: gs2) with
      | none => rw [hmo] at heq; simp at heq
      | some results =>
        rw [hmo] at heq
        cases results with
        | nil => simp at heq
        | cons r0 rs =>
          have heq2 : rs.foldl extendResult r0 = res := by simpa using heq
          have hr0 : getClientReferencesForEndpoint env g1 fuel entry = some r0 := by
            rw [mapOption] at hmo
            cases hg1 : getClientReferencesForEndpoint env g1 fuel entry with
            | none => rw [hg1] at hmo; simp at hmo
            | some b =>
              rw [hg1] at hmo
              cases hrest : mapOption
                  (fun g => getClientReferencesForEndpoint env g fuel entry)
                  (g2 :: gs2) with
              | none => rw [hrest] at hmo; simp at hmo
              | some bs =>
                rw [hrest] at hmo
                have hbb : b :: bs = r0 :: rs := by simpa using hmo
                injection hbb with hb1 hb2
                exact congrArg some hb1
          rw [← heq2]
          exact foldl_extendResult_head rs r0 (hview g1 r0 hr0)

/-- Environment for the C8 witness: no references, no server entries. -/
def envC8 : Env :=
  { refs := fun _ => []
    isMapExt := fun _ => false
    serverUtils := fun _ => []
    serverComponentEntries := fun _ => [] }

/-- A client-references view whose module 1 is an ECMAScript client
reference with SSR module 4. -/
def vC8 : ClientReferencesGraph :=
  { is_single_page := false
    graph := { nodes := [0, 1], edges := [(0, 1)], entries := [(0, 0)] }
    data := [(1, CRMapType.ecmascriptClientReference 1 4)] }

/-- A second view whose module 2 is a CSS client reference, so the
merged branch of the aggregator is exercised. -/
def vC8b : ClientReferencesGraph :=
  { is_single_page := false
    graph := { nodes := [0, 2], edges := [(0, 1)], entries := [(0, 0)] }
    data := [(2, CRMapType.cssClientReference 2)] }

def rC8 : ReducedGraphs :=
  { next_dynamic := [], server_actions := [], client_references := [vC8, vC8b] }

theorem claim_none_bucket_first_witness :
    ((((getClientReferencesForEndpoint envC8 vC8 10 0).getD
        default).client_references_by_server_component.map Prod.fst).head?
      = some none) ∧
    ((((reducedGetClientReferencesForEndpoint envC8 rC8 10 0).getD
        default).client_references_by_server_component.map Prod.fst).head?
      = some none) :=
  ⟨(claim_none_bucket_first envC8 10 0).1 vC8
      ((getClientReferencesForEndpoint envC8 vC8 10 0).getD default) (by decide),
   (claim_none_bucket_first envC8 10 0).2 rC8
      ((reducedGetClientReferencesForEndpoint envC8 rC8 10 0).getD default) (by decide)⟩

/-- Environment for the C1 witness: module 0 references 1 and the
sourcemap artifact 5; module 1 references 2. -/
def envW1 : Env :=
  { refs := fun n => if n = 0 then [1, 5] else if n = 1 then [2] else []
    isMapExt := fun n => n = 5
    serverUtils := fun _ => []
    serverComponentEntries := fun _ => [] }

def gW1 : Graph := { nodes := [0, 1, 2], edges := [(0, 1), (1, 2)], entries := [(0, 0)] }

theorem claim_nodes_exactly_reachable_witness :
    (2 ∈ gW1.nodes ↔ Reach envW1 [0] 2) ∧ gW1.nodes.Nodup :=
  ⟨(claim_nodes_exactly_reachable envW1 10 [0] gW1 (by decide)).1 2,
   (claim_nodes_exactly_reachable envW1 10 [0] gW1 (by decide)).2⟩

/-- Environment for the C6 counterexample: module 0 lists module 1 in
its primary references twice. -/
def envC6 : Env :=
  { refs := fun n => if n = 0 then [1, 1] else []
    isMapExt := fun _ => false
    serverUtils := fun _ => []
    serverComponentEntries := fun _ => [] }

def gC6 : Graph := { nodes := [0, 1], edges := [(0, 1), (0, 1)], entries := [(0, 0)] }

/-- C6 as stated is false: the parent node 0 references the child
module twice, and construction produces two parallel edges `(0, 1)`,
not one. -/
theorem claim_no_duplicate_edges_counterexample :
    (newInner envC6 10 none [0] []).map (fun g => cnt (0, 1) g.edges) = some 2 := by
  decide

theorem claim_edge_multiplicity_witness :
    cnt (0, 1) gC6.edges
      = cnt (gC6.nodes.getD 1 0) (filteredRefs envC6 (gC6.nodes.getD 0 0)) :=
  (claim_edge_multiplicity envC6 10 [0] gC6 (by decide)).2 0 1 (by decide) (by decide)

theorem lookup_append {α β : Type} [BEq α] (a : α) (l1 l2 : List (α × β)) :
    List.lookup a (l1 ++ l2) = (List.lookup a l1).or (List.lookup a l2) := by
  induction l1 with
  | nil => simp [List.lookup]
  | cons p t ih =>
    obtain ⟨k, v⟩ := p
    simp only [List.cons_append, List.lookup]
    cases a == k <;> simp [ih]

theorem lookup_map_self_isSome {m : Nat} {entries : List Nat} (f : Nat → Nat)
    (hm : m ∈ entries) :
    (List.lookup m (entries.map (fun e => (e, f e)))).isSome := by
  induction entries with
  | nil => simp at hm
  | cons e t ih =>
    simp only [List.map_cons, List.lookup]
    by_cases he : m = e
    · simp [he]
    · have : (m == e) = false := by simp [he]
      rw [this]
      have hmt : m ∈ t := by
        rcases List.mem_cons.1 hm with h | h
        · exact absurd h he
        · exact h
      exact ih hmt

/-- Every node of a graph built by `new_inner` that lies in the seeded
visited set is one of the build's designated entries, i.e. a key of the
graph's `entries` map (the entry list, or the root when it was added). -/
theorem newInner_visited_entries {env : Env} {fuel : Nat} {root : Option Nat}
    {entries visited : List Nat} {g : Graph}
    (heq : newInner env fuel root entries visited = some g) :
    ∀ m, m ∈ g.nodes → m ∈ visited → (g.entries.lookup m).isSome := by
  rw [newInner] at heq
  cases hb : buildLoop env visited fuel
      ((entries.map (fun e => ((none : Option Nat), e))).reverse)
      { nodes := [], edges := [], modules := [] } with
  | none => rw [hb] at heq; simp at heq
  | some s =>
    rw [hb] at heq
    have hinv : VisitInv entries visited [] s := by
      refine buildLoop_visitInv ⟨?_, ?_⟩ hb
      · intro p m hpm _
        rw [List.mem_reverse] at hpm
        obtain ⟨e, he, hpe⟩ := List.mem_map.1 hpm
        cases hpe
        exact he
      · intro m hm
        simp at hm
    simp only [Option.some.injEq] at heq
    intro m hm hv
    subst heq
    cases hroot : root with
    | none =>
      simp only [hroot] at hm ⊢
      have hment : m ∈ entries := hinv.2 m hm hv
      rw [lookup_append]
      have := lookup_map_self_isSome (fun e => (s.modules.lookup e).getD 0) hment
      cases h : List.lookup m (entries.map fun e => (e, (List.lookup e s.modules).getD 0)) with
      | none => rw [h] at this; simp at this
      | some v => simp [h]
    | some r =>
      simp only [hroot] at hm ⊢
      by_cases hr : (s.modules.lookup r).isSome
      · simp only [hr, if_true] at hm ⊢
        have hment : m ∈ entries := hinv.2 m hm hv
        rw [lookup_append]
        have := lookup_map_self_isSome (fun e => (s.modules.lookup e).getD 0) hment
        cases h : List.lookup m (entries.map fun e => (e, (List.lookup e s.modules).getD 0)) with
        | none => rw [h] at this; simp at this
        | some v => simp [h]
      · simp only [hr, if_false] at hm ⊢
        rw [lookup_append]
        rcases List.mem_append.1 hm with hm | hm
        · have hment : m ∈ entries := hinv.2 m hm hv
          have := lookup_map_self_isSome (fun e => (s.modules.lookup e).getD 0) hment
          cases h : List.lookup m (entries.map fun e => (e, (List.lookup e s.modules).getD 0)) with
          | none => rw [h] at this; simp at this
          | some v => simp [h]
        · have hmr : m = r := by simpa using hm
          subst hmr
          cases h : List.lookup m (entries.map fun e => (e, (List.lookup e s.modules).getD 0)) with
          | none => simp [h, Option.toList, List.lookup]
          | some v => simp [h]

/-- `gb` contains no node of `ga` except `gb`'s own designated
entries: the relation between an earlier and a later graph in the
layout-segment sequence. -/
def GraphExcl (ga gb : Graph) : Prop :=
  ∀ m, m ∈ gb.nodes → m ∈ ga.nodes → (gb.entries.lookup m).isSome

theorem segmentGraphs_spec {env : Env} {fuel entry : Nat} :
    ∀ {ms visited : List Nat} {gs : List Graph} {v' : List Nat},
      segmentGraphs env fuel entry ms visited = some (gs, v') →
      (∀ x, x ∈ visited → x ∈ v') ∧
      (∀ g, g ∈ gs → ∀ x, x ∈ g.nodes → x ∈ v') ∧
      gs.Pairwise GraphExcl ∧
      (∀ g, g ∈ gs → ∀ m, m ∈ g.nodes → m ∈ visited → (g.entries.lookup m).isSome)
  | [], visited, gs, v', heq => by
      simp only [segmentGraphs, Option.some.injEq, Prod.mk.injEq] at heq
      obtain ⟨h1, h2⟩ := heq
      subst h1; subst h2
      exact ⟨fun x hx => hx, by simp, by simp, by simp⟩
  | m :: ms, visited, gs, v', heq => by
      rw [segmentGraphs] at heq
      cases hg : newInner env fuel (some entry) [m] visited with
      | none => rw [hg] at heq; simp at heq
      | some g =>
        simp only [hg] at heq
        cases hrec : segmentGraphs env fuel entry ms (visited ++ g.nodes) with
        | none => rw [hrec] at heq; simp at heq
        | some p =>
          obtain ⟨gs', v''⟩ := p
          rw [hrec] at heq
          have heq2 : g :: gs' = gs ∧ v'' = v' := by
            simpa using heq
          obtain ⟨h1, h2⟩ := heq2
          subst h1; subst h2
          obtain ⟨ih1, ih2, ih3, ih4⟩ := segmentGraphs_spec hrec
          refine ⟨?_, ?_, ?_, ?_⟩
          · exact fun x hx => ih1 x (List.mem_append.2 (Or.inl hx))
          · intro g' hg' x hx
            rcases List.mem_cons.1 hg' with hg1 | hg1
            · subst hg1
              exact ih1 x (List.mem_append.2 (Or.inr hx))
            · exact ih2 g' hg1 x hx
          · refine List.Pairwise.cons ?_ ih3
            intro gb hgb m' hm1 hm2
            exact ih4 gb hgb m' hm1 (List.mem_append.2 (Or.inr hm2))
          · intro g' hg' m' hm' hvis
            rcases List.mem_cons.1 hg' with hg1 | hg1
            · subst hg1
              exact newInner_visited_entries hg m' hm' hvis
            · exact ih4 g' hg1 m' hm' (List.mem_append.2 (Or.inl hvis))

/-- C2: a graph built with a seeded `alreadyVisited` set contains no
seeded module except its own designated entries; and in the
layout-segment sequence, every later graph contains no node of any
earlier graph except its own designated entries. -/
theorem claim_visited_modules_excluded (env : Env) (fuel : Nat) :
    (∀ (root : Option Nat) (entries visited : List Nat) (g : Graph),
        newInner env fuel root entries visited = some g →
        ∀ m, m ∈ g.nodes → m ∈ visited → (g.entries.lookup m).isSome) ∧
    (∀ (entry : Nat) (gs : List Graph),
        getModuleGraphForEndpoint env fuel entry = some gs →
        gs.Pairwise GraphExcl) := by
  refine ⟨fun root entries visited g heq => newInner_visited_entries heq,
    fun entry gs heq => ?_⟩
  rw [getModuleGraphForEndpoint] at heq
  cases h0 : newInner env fuel (some entry) (env.serverUtils entry) [] with
  | none => rw [h0] at heq; simp at heq
  | some g0 =>
    simp only [h0] at heq
    cases hseg : segmentGraphs env fuel entry (env.serverComponentEntries entry) g0.nodes with
    | none => rw [hseg] at heq; simp at heq
    | some p =>
      obtain ⟨gs', visited⟩ := p
      simp only [hseg] at heq
      cases hN : newInner env fuel (some entry) [entry] visited with
      | none => rw [hN] at heq; simp at heq
      | some gN =>
        simp only [hN] at heq
        simp only [Option.some.injEq] at heq
        subst heq
        obtain ⟨hs1, hs2, hs3, hs4⟩ := segmentGraphs_spec hseg
        refine List.Pairwise.cons ?_ ?_
        · intro gb hgb m hm1 hm2
          rcases List.mem_append.1 hgb with hgb | hgb
          · exact hs4 gb hgb m hm1 hm2
          · have : gb = gN := by simpa using hgb
            subst this
            exact newInner_visited_entries hN m hm1 (hs1 m hm2)
        · rw [List.pairwise_append]
          refine ⟨hs3, by simp, ?_⟩
          intro ga hga gb hgb m hm1 hm2
          have : gb = gN := by simpa using hgb
          subst this
          exact newInner_visited_entries hN m hm1 (hs2 ga hga m hm2)

/-- Concrete environment for evaluating the construction: module 0
references 1 and 2, module 1 references 2; the server utilities of
every endpoint are `[1]` and the server component entries `[2]`. -/
def envW2 : Env :=
  { refs := fun n => if n = 0 then [1, 2] else if n = 1 then [2] else []
    isMapExt := fun _ => false
    serverUtils := fun _ => [1]
    serverComponentEntries := fun _ => [2] }

def gW2seg : Graph := { nodes := [2, 0], edges := [(1, 0)], entries := [(2, 0), (0, 1)] }

def gW2all : List Graph :=
  [{ nodes := [1, 2, 0], edges := [(0, 1), (2, 0)], entries := [(1, 0), (0, 2)] },
   { nodes := [2, 0], edges := [(1, 0)], entries := [(2, 0), (0, 1)] },
   { nodes := [0], edges := [], entries := [(0, 0)] }]

theorem claim_visited_modules_excluded_witness :
    (gW2seg.entries.lookup 2).isSome ∧ gW2all.Pairwise GraphExcl := by
  constructor
  · exact (claim_visited_modules_excluded envW2 20).1 (some 0) [2] [1, 2, 0] gW2seg
      (by decide) 2 (by decide) (by decide)
  · exact (claim_visited_modules_excluded envW2 20).2 0 gW2all (by decide)

/-! ### C3: nearest server-component boundary propagation -/

/-- The boundary fold of the claim: walking a chain of middle modules in
order, a server-component boundary overrides the inherited boundary. -/
def chainBoundary (classify : Nat → Option CRKind) (b : Option Nat)
    (l : List Nat) : Option Nat :=
  l.foldl (fun acc x => if classify x = some CRKind.sc then some x else acc) b

/-- A linear graph whose node `i` points to node `i + 1`, with the first
module as the only entry. -/
def chainGraph (l : List Nat) : Graph :=
  { nodes := l
    edges := (List.range (l.length - 1)).map (fun j => (j, j + 1))
    entries := [(l.getD 0 0, 0)] }

theorem range_filter_beq (i : Nat) :
    ∀ (n : Nat), (List.range n).filter (fun j => j == i) = if i < n then [i] else [] := by
  intro n
  induction n with
  | zero => simp
  | succ n ih =>
    rw [List.range_succ, List.filter_append, ih]
    by_cases h : i < n
    · rw [if_pos h, if_pos (Nat.lt_succ_of_lt h)]
      have hne : (n == i) = false := by simp; omega
      simp [hne]
    · rw [if_neg h]
      by_cases h2 : i = n
      · subst h2
        rw [if_pos (Nat.lt_succ_self i)]
        simp
      · have hne : (n == i) = false := by simp; omega
        rw [if_neg (by omega : ¬ i < n + 1)]
        simp [hne]

theorem chain_neighbors (l : List Nat) (i : Nat) :
    neighbors (chainGraph l) i = if i + 1 < l.length then [i + 1] else [] := by
  rw [neighbors]
  show (((((List.range (l.length - 1)).map (fun j => (j, j + 1))).filter
      (fun e => e.1 == i)).map (fun e => e.2)).reverse) = _
  rw [List.filter_map]
  have hcomp : ((fun e : Nat × Nat => e.1 == i) ∘ (fun j => (j, j + 1)))
      = (fun j => j == i) := rfl
  rw [hcomp, range_filter_beq]
  by_cases h : i < l.length - 1
  · rw [if_pos h, if_pos (by omega : i + 1 < l.length)]
    rfl
  · rw [if_neg h, if_neg (by omega : ¬ i + 1 < l.length)]
    rfl

theorem getD_append_self {α : Type} (d a : α) :
    ∀ (l1 l2 : List α), (l1 ++ a :: l2).getD l1.length d = a
  | [], _ => rfl
  | _ :: t, l2 => getD_append_self d a t l2

theorem getD_append_succ {α : Type} (d a : α) :
    ∀ (l1 l2 : List α), (l1 ++ a :: l2).getD (l1.length + 1) d = l2.getD 0 d
  | [], _ => rfl
  | _ :: t, l2 => getD_append_succ d a t l2

theorem getLast_getD {α : Type} :
    ∀ (l : List α) (x cur : α), ((x :: l).getLast?).getD cur = (l.getLast?).getD x
  | [], _, _ => rfl
  | y :: t, x, cur => by
    rw [List.getLast?_cons_cons]
    exact (getLast_getD t y cur).trans (getLast_getD t y x).symm

theorem mapCR_lookup_none (classify : Nat → Option CRKind) {m : Nat} :
    ∀ {l : List Nat}, m ∉ l →
      List.lookup m (l.filterMap (fun x => (classify x).map
        (fun k => (x, CRKind.toMapType k x)))) = none
  | [], _ => rfl
  | a :: t, hm => by
    rw [List.filterMap_cons]
    cases ha : (classify a).map (fun k => (a, CRKind.toMapType k a)) with
    | none => exact mapCR_lookup_none classify (fun h => hm (List.mem_cons_of_mem a h))
    | some p =>
      obtain ⟨k, hclass, hfk⟩ := Option.map_eq_some'.mp ha
      rw [← hfk, lookup_cons]
      rw [if_neg (fun h => hm (by rw [h]; exact List.mem_cons_self a t))]
      exact mapCR_lookup_none classify (fun h => hm (List.mem_cons_of_mem a h))

theorem mapCR_lookup (classify : Nat → Option CRKind) {m : Nat} :
    ∀ {l : List Nat}, l.Nodup → m ∈ l →
      List.lookup m (l.filterMap (fun x => (classify x).map
        (fun k => (x, CRKind.toMapType k x))))
        = (classify m).map (fun k => CRKind.toMapType k m)
  | [], _, hm => absurd hm (List.not_mem_nil m)
  | a :: t, hnd, hm => by
    rw [List.filterMap_cons]
    by_cases hma : m = a
    · subst hma
      cases ha : classify m with
      | none =>
        simp only [ha, Option.map_none']
        exact mapCR_lookup_none classify ((List.nodup_cons.mp hnd).1)
      | some k =>
        simp only [ha, Option.map_some']
        rw [lookup_cons, if_pos rfl]
    · have hmt : m ∈ t := by
        rcases List.mem_cons.mp hm with h | h
        · exact absurd h hma
        · exact h
      have hnd' := (List.nodup_cons.mp hnd).2
      cases ha : classify a with
      | none =>
        simp only [ha, Option.map_none']
        exact mapCR_lookup classify hnd' hmt
      | some k =>
        simp only [ha, Option.map_some']
        rw [lookup_cons, if_neg hma]
        exact mapCR_lookup classify hnd' hmt

/-- `mapClientReferences` lookup on a duplicate-free node list reports
the classification of the module. -/
theorem mapClientReferences_lookup (classify : Nat → Option CRKind) (g : Graph)
    (hnd : g.nodes.Nodup) {m : Nat} (hm : m ∈ g.nodes) :
    (mapClientReferences classify g).lookup m
      = (classify m).map (fun k => CRKind.toMapType k m) := by
  rw [mapClientReferences]
  exact mapCR_lookup classify hnd hm

theorem crVisitor_lookup_none (data : List (Nat × CRMapType)) (st : CRState)
    (parent m : Nat) (h : data.lookup m = none) :
    crVisitor data st (some parent, m)
      = ({ st with state_map := (m, (st.state_map.lookup parent).join) :: st.state_map },
         Action.cont) := by
  rw [crVisitor]
  simp only [h]

theorem crVisitor_lookup_sc (data : List (Nat × CRMapType)) (st : CRState)
    (parent m m' : Nat) (h : data.lookup m = some (CRMapType.serverComponent m')) :
    crVisitor data st (some parent, m)
      = ({ st with state_map := (m, some m') :: st.state_map }, Action.cont) := by
  rw [crVisitor]
  simp only [h]

theorem crVisitor_lookup_ecma (data : List (Nat × CRMapType)) (st : CRState)
    (parent m m' ssr : Nat)
    (h : data.lookup m = some (CRMapType.ecmascriptClientReference m' ssr)) :
    crVisitor data st (some parent, m)
      = ({ st with
            state_map := (m, (st.state_map.lookup parent).join) :: st.state_map
            client_references := st.client_references
              ++ [{ server_component := (st.state_map.lookup parent).join
                    ty := ClientReferenceType.ecmascriptClientReference parent m' }]
            client_references_by_server_component :=
              pushBucket st.client_references_by_server_component
                ((st.state_map.lookup parent).join) ssr }, Action.skip) := by
  rw [crVisitor]
  simp only [h]

/-- One pop of `walkLoop` on a node with a single outgoing edge: the
visitor is invoked once; a `Continue` answer on an undiscovered
successor pushes it, anything else empties the stack's contribution. -/
theorem walkLoop_single_step {σ : Type} (g : Graph)
    (vis : σ → Option Nat × Nat → σ × Action) (f i : Nat) (disc : List Nat)
    (st st1 : σ) (a : Action) (tr : WalkTrace)
    (hd : i ∉ disc)
    (hn : neighbors g i = [i + 1])
    (hv : vis st (some (g.nodes.getD i 0), g.nodes.getD (i + 1) 0) = (st1, a)) :
    walkLoop g vis (f + 1) [i] disc st tr
      = if i + 1 ∉ disc ∧ a = Action.cont then
          walkLoop g vis f [i + 1] (i :: disc) st1
            { calls := tr.calls ++ [((some (g.nodes.getD i 0), g.nodes.getD (i + 1) 0), a)]
              pushes := tr.pushes ++ [i + 1]
              pops := tr.pops ++ [i]
              expanded := tr.expanded ++ [i] }
        else some (st1,
            { calls := tr.calls ++ [((some (g.nodes.getD i 0), g.nodes.getD (i + 1) 0), a)]
              pushes := tr.pushes
              pops := tr.pops ++ [i]
              expanded := tr.expanded ++ [i] }) := by
  rw [walkLoop, if_neg hd, hn]
  rw [expandNode]
  have hmemc : (i + 1 ∉ i :: disc) ↔ (i + 1 ∉ disc) := by
    have hne : i + 1 ≠ i := Nat.succ_ne_self i
    simp [List.mem_cons, hne]
  rw [hv]
  by_cases hcond : i + 1 ∉ disc ∧ a = Action.cont
  · rw [if_pos hcond]
    rw [if_pos ⟨hmemc.mpr hcond.1, hcond.2⟩]
    rw [expandNode]
    rfl
  · rw [if_neg hcond]
    rw [if_neg (fun hc => hcond ⟨hmemc.mp hc.1, hc.2⟩)]
    show walkLoop g vis f [] (i :: disc) st1 _ = _
    rw [walkLoop]

/-- Walking the tail of a chain graph: popping the node of `cur` (at
index `front.length`) with the remaining middle modules `rest` and the
final client reference `c` appends exactly one record, whose boundary
is the `chainBoundary` fold of `rest` over `cur`'s recorded boundary
and whose parent is the last module before `c`. -/
theorem chain_walk_aux (classify : Nat → Option CRKind) (l : List Nat) (c ssr : Nat)
    (hnd : l.Nodup) (hc : classify c = some (CRKind.ecma ssr)) :
    ∀ (rest front : List Nat) (cur : Nat),
      l = front ++ cur :: (rest ++ [c]) →
      (∀ x ∈ rest, classify x = none ∨ classify x = some CRKind.sc) →
      ∀ (fuel : Nat), rest.length + 1 ≤ fuel →
      ∀ (st : CRState) (tr : WalkTrace) (disc : List Nat),
      (∀ d ∈ disc, d < front.length) →
      ∃ stF trF,
        walkLoop (chainGraph l) (crVisitor (mapClientReferences classify (chainGraph l)))
          fuel [front.length] disc st tr = some (stF, trF) ∧
        stF.client_references = st.client_references ++
          [{ server_component :=
               chainBoundary classify ((st.state_map.lookup cur).join) rest
             ty := ClientReferenceType.ecmascriptClientReference
               ((rest.getLast?).getD cur) c }] := by
  intro rest
  induction rest with
  | nil =>
    intro front cur hdecomp hrest fuel hfuel st tr disc hdisc
    have hlen : l.length = front.length + 2 := by
      have h := congrArg List.length hdecomp; simp at h; omega
    have hnotin : front.length ∉ disc := fun h => Nat.lt_irrefl _ (hdisc _ h)
    have hneigh : neighbors (chainGraph l) front.length = [front.length + 1] := by
      rw [chain_neighbors, if_pos (by omega : front.length + 1 < l.length)]
    have hgnodes : (chainGraph l).nodes = l := rfl
    have hgcur : (chainGraph l).nodes.getD front.length 0 = cur := by
      rw [hgnodes, hdecomp]; exact getD_append_self 0 cur front ([] ++ [c])
    have hgc : (chainGraph l).nodes.getD (front.length + 1) 0 = c := by
      rw [hgnodes, hdecomp]
      exact getD_append_succ 0 cur front ([] ++ [c])
    have hcin : c ∈ l := by rw [hdecomp]; simp
    simp only [List.length_nil] at hfuel
    have hlkc : (mapClientReferences classify (chainGraph l)).lookup c
        = some (CRMapType.ecmascriptClientReference c ssr) := by
      rw [mapClientReferences_lookup classify (chainGraph l) hnd (hgnodes ▸ hcin), hc]
      rfl
    obtain ⟨f, rfl⟩ : ∃ f, fuel = f + 1 := ⟨fuel - 1, by omega⟩
    have hv := crVisitor_lookup_ecma _ st cur c c ssr hlkc
    have hstep := walkLoop_single_step (chainGraph l)
      (crVisitor (mapClientReferences classify (chainGraph l))) f front.length disc
      st _ Action.skip tr hnotin hneigh (by rw [hgcur, hgc]; exact hv)
    rw [if_neg (by simp : ¬ ((front.length + 1 ∉ disc) ∧ Action.skip = Action.cont))]
      at hstep
    refine ⟨_, _, hstep, ?_⟩
    rfl
  | cons x rest' ih =>
    intro front cur hdecomp hrest fuel hfuel st tr disc hdisc
    have hlen : l.length = front.length + rest'.length + 3 := by
      have h := congrArg List.length hdecomp; simp at h; omega
    have hnotin : front.length ∉ disc := fun h => Nat.lt_irrefl _ (hdisc _ h)
    have hneigh : neighbors (chainGraph l) front.length = [front.length + 1] := by
      rw [chain_neighbors, if_pos (by omega : front.length + 1 < l.length)]
    have hgnodes : (chainGraph l).nodes = l := rfl
    have hgcur : (chainGraph l).nodes.getD front.length 0 = cur := by
      rw [hgnodes, hdecomp]; exact getD_append_self 0 cur front ((x :: rest') ++ [c])
    have hgx : (chainGraph l).nodes.getD (front.length + 1) 0 = x := by
      rw [hgnodes, hdecomp]
      exact getD_append_succ 0 cur front ((x :: rest') ++ [c])
    have hxin : x ∈ l := by rw [hdecomp]; simp
    have hlkx : (mapClientReferences classify (chainGraph l)).lookup x
        = (classify x).map (fun k => CRKind.toMapType k x) :=
      mapClientReferences_lookup classify (chainGraph l) hnd (hgnodes ▸ hxin)
    simp only [List.length_cons] at hfuel
    obtain ⟨f, rfl⟩ : ∃ f, fuel = f + 1 := ⟨fuel - 1, by omega⟩
    have hxcls := hrest x (List.mem_cons_self x rest')
    -- the updated state after visiting x, in both classification cases
    have hmain : ∀ (st1 : CRState),
        st1.client_references = st.client_references →
        (st1.state_map.lookup x).join
          = (if classify x = some CRKind.sc then some x
             else (st.state_map.lookup cur).join) →
        crVisitor (mapClientReferences classify (chainGraph l)) st
            (some cur, x) = (st1, Action.cont) →
        ∃ stF trF,
          walkLoop (chainGraph l)
            (crVisitor (mapClientReferences classify (chainGraph l)))
            (f + 1) [front.length] disc st tr = some (stF, trF) ∧
          stF.client_references = st.client_references ++
            [{ server_component :=
                 chainBoundary classify ((st.state_map.lookup cur).join) (x :: rest')
               ty := ClientReferenceType.ecmascriptClientReference
                 (((x :: rest').getLast?).getD cur) c }] := by
      intro st1 hcr1 hsm1 hv
      have hstep := walkLoop_single_step (chainGraph l)
        (crVisitor (mapClientReferences classify (chainGraph l))) f front.length disc
        st st1 Action.cont tr hnotin hneigh (by rw [hgcur, hgx]; exact hv)
      have hnotin2 : front.length + 1 ∉ disc :=
        fun h => Nat.lt_irrefl _ (Nat.lt_of_lt_of_le (hdisc _ h) (Nat.le_succ _))
      rw [if_pos ⟨hnotin2, rfl⟩] at hstep
      have hdecomp' : l = (front ++ [cur]) ++ x :: (rest' ++ [c]) := by
        rw [hdecomp]; simp
      have hdisc' : ∀ d ∈ front.length :: disc, d < (front ++ [cur]).length := by
        intro d hd
        rw [List.length_append, List.length_cons, List.length_nil]
        rcases List.mem_cons.mp hd with h | h
        · omega
        · have := hdisc _ h; omega
      obtain ⟨stF, trF, hloop, hcrF⟩ := ih (front ++ [cur]) x hdecomp'
        (fun y hy => hrest y (List.mem_cons_of_mem x hy)) f (by omega)
        st1 _ (front.length :: disc) hdisc'
      have hlen' : (front ++ [cur]).length = front.length + 1 := by
        rw [List.length_append, List.length_cons, List.length_nil]
      rw [hlen'] at hloop
      refine ⟨stF, trF, hstep.trans hloop, ?_⟩
      rw [hcrF, hcr1, hsm1]
      have hcb : chainBoundary classify ((st.state_map.lookup cur).join) (x :: rest')
          = chainBoundary classify
              (if classify x = some CRKind.sc then some x
               else (st.state_map.lookup cur).join) rest' := by
        rw [chainBoundary, chainBoundary, List.foldl_cons]
      rw [hcb, getLast_getD]
    rcases hxcls with hnone | hsc
    · have hlk : (mapClientReferences classify (chainGraph l)).lookup x = none := by
        rw [hlkx, hnone]; rfl
      have hv := crVisitor_lookup_none _ st cur x hlk
      refine hmain
        { st with state_map := (x, (st.state_map.lookup cur).join) :: st.state_map }
        rfl ?_ hv
      rw [if_neg (by rw [hnone]; intro h; exact Option.noConfusion h)]
      show (List.lookup x ((x, (st.state_map.lookup cur).join) :: st.state_map)).join
        = (st.state_map.lookup cur).join
      rw [lookup_cons, if_pos rfl]
      rfl
    · have hlk : (mapClientReferences classify (chainGraph l)).lookup x
          = some (CRMapType.serverComponent x) := by
        rw [hlkx, hsc]; rfl
      have hv := crVisitor_lookup_sc _ st cur x x hlk
      refine hmain { st with state_map := (x, some x) :: st.state_map } rfl ?_ hv
      rw [if_pos hsc]
      show (List.lookup x ((x, (some x : Option Nat)) :: st.state_map)).join
        = some x
      rw [lookup_cons, if_pos rfl]
      rfl

theorem getLast?_cons_some {α : Type} : ∀ (y : α) (ys : List α),
    ∃ z, (y :: ys).getLast? = some z
  | y, [] => ⟨y, rfl⟩
  | _, z :: t => by
    rw [List.getLast?_cons_cons]
    exact getLast?_cons_some z t

/-- The boundary fold over an unrecorded start is the last
server-component module of the chain (none when there is none). -/
theorem chainBoundary_eq_getLast (classify : Nat → Option CRKind) :
    ∀ (mid : List Nat) (b : Option Nat),
      chainBoundary classify b mid
        = ((mid.filter (fun x => classify x == some CRKind.sc)).getLast?).elim b some
  | [], b => rfl
  | x :: t, b => by
    have hstep : chainBoundary classify b (x :: t)
        = chainBoundary classify
            (if classify x = some CRKind.sc then some x else b) t := rfl
    rw [hstep]
    by_cases hx : classify x = some CRKind.sc
    · have hxb : (classify x == some CRKind.sc) = true := by simp [hx]
      rw [if_pos hx, chainBoundary_eq_getLast classify t (some x), List.filter_cons,
        if_pos (show ((fun y => classify y == some CRKind.sc) x) = true from hxb)]
      cases hf : t.filter (fun y => classify y == some CRKind.sc) with
      | nil => rfl
      | cons y ys =>
        rw [List.getLast?_cons_cons]
        obtain ⟨z, hz⟩ := getLast?_cons_some y ys
        rw [hz]
        rfl
    · have hxb : ¬ ((classify x == some CRKind.sc) = true) := by simp [hx]
      rw [if_neg hx, List.filter_cons,
        if_neg (show ¬ (((fun y => classify y == some CRKind.sc) x) = true) from hxb)]
      exact chainBoundary_eq_getLast classify t b

theorem crVisitor_lookup_css (data : List (Nat × CRMapType)) (st : CRState)
    (parent m m' : Nat)
    (h : data.lookup m = some (CRMapType.cssClientReference m')) :
    crVisitor data st (some parent, m)
      = ({ st with
            state_map := (m, (st.state_map.lookup parent).join) :: st.state_map
            client_references := st.client_references
              ++ [{ server_component := (st.state_map.lookup parent).join
                    ty := ClientReferenceType.cssClientReference m' }] },
         Action.skip) := by
  rw [crVisitor]
  simp only [h]

/-- C3: for every walked edge (parent, child) the client-references
visitor records as child's nearest boundary the child itself when the
child is classified as a server-component boundary, and parent's
recorded boundary (none when parent is unrecorded) otherwise; and on a
chain entry → mid₁ → … → midₖ → clientReference the single emitted
record's `server_component` is the last server-component module of the
middle chain — none when no server component lies between the entry and
the client reference. -/
theorem claim_nearest_boundary (classify : Nat → Option CRKind) :
    (∀ (g : Graph), g.nodes.Nodup → ∀ (st : CRState) (parent child : Nat),
      child ∈ g.nodes →
      (crVisitor (mapClientReferences classify g) st (some parent, child)).1.state_map
        = (child,
            if classify child = some CRKind.sc then some child
            else (st.state_map.lookup parent).join) :: st.state_map) ∧
    (∀ (m0 : Nat) (mid : List Nat) (c ssr fuel : Nat),
      (m0 :: mid ++ [c]).Nodup →
      classify c = some (CRKind.ecma ssr) →
      (∀ x ∈ mid, classify x = none ∨ classify x = some CRKind.sc) →
      mid.length + 1 ≤ fuel →
      (traverseEdges (chainGraph (m0 :: mid ++ [c])) fuel m0
          (crVisitor (mapClientReferences classify (chainGraph (m0 :: mid ++ [c]))))
          crInitState).map (fun r => r.1.client_references)
        = some [{ server_component :=
                    (mid.filter (fun x => classify x == some CRKind.sc)).getLast?
                  ty := ClientReferenceType.ecmascriptClientReference
                    ((mid.getLast?).getD m0) c }]) := by
  constructor
  · intro g hnd st parent child hchild
    have hlk := mapClientReferences_lookup classify g hnd hchild
    cases hcl : classify child with
    | none =>
      rw [crVisitor_lookup_none _ st parent child (by rw [hlk, hcl]; rfl)]
      rw [if_neg (by simp [hcl])]
    | some k =>
      cases k with
      | ecma ssr =>
        rw [crVisitor_lookup_ecma _ st parent child child ssr (by rw [hlk, hcl]; rfl)]
        rw [if_neg (by simp [hcl])]
      | css =>
        rw [crVisitor_lookup_css _ st parent child child (by rw [hlk, hcl]; rfl)]
        rw [if_neg (by simp [hcl])]
      | sc =>
        rw [crVisitor_lookup_sc _ st parent child child (by rw [hlk, hcl]; rfl)]
        rw [if_pos rfl]
  · intro m0 mid c ssr fuel hnd hc hmid hfuel
    have hlkc : (chainGraph (m0 :: mid ++ [c])).entries.lookup m0 = some 0 := by
      show List.lookup m0 [((m0 :: mid ++ [c]).getD 0 0, 0)] = some 0
      rw [show (m0 :: mid ++ [c]).getD 0 0 = m0 from rfl, lookup_cons, if_pos rfl]
    obtain ⟨stF, trF, hloop, hcr⟩ := chain_walk_aux classify (m0 :: mid ++ [c]) c ssr
      hnd hc mid [] m0 rfl hmid fuel (by omega) crInitState
      { calls := [((none, m0), Action.cont)], pushes := [0], pops := [], expanded := [] }
      [] (by simp)
    simp only [List.length_nil] at hloop
    have htv : traverseEdges (chainGraph (m0 :: mid ++ [c])) fuel m0
        (crVisitor (mapClientReferences classify (chainGraph (m0 :: mid ++ [c]))))
        crInitState
        = walkLoop (chainGraph (m0 :: mid ++ [c]))
            (crVisitor (mapClientReferences classify (chainGraph (m0 :: mid ++ [c]))))
            fuel [0] [] crInitState
            { calls := [((none, m0), Action.cont)], pushes := [0], pops := [],
              expanded := [] } := by
      rw [traverseEdges]
      simp only [hlkc]
      rfl
    rw [htv, hloop]
    simp only [Option.map_some', Option.some.injEq]
    rw [hcr]
    have hb : chainBoundary classify ((crInitState.state_map.lookup m0).join) mid
        = (mid.filter (fun x => classify x == some CRKind.sc)).getLast? := by
      show chainBoundary classify none mid = _
      rw [chainBoundary_eq_getLast]
      cases (mid.filter (fun x => classify x == some CRKind.sc)).getLast? with
      | none => rfl
      | some z => rfl
    rw [hb]
    rfl

/-- Classification for the C3 witness: module 1 is a server-component
boundary, module 3 an ECMAScript client reference with SSR module 7. -/
def classifyC3 : Nat → Option CRKind := fun n =>
  if n = 1 then some CRKind.sc else
  if n = 3 then some (CRKind.ecma 7) else none

theorem claim_nearest_boundary_witness :
    ((crVisitor (mapClientReferences classifyC3 (chainGraph [0, 1, 2, 3])) crInitState
        (some 0, 1)).1.state_map
      = (1, if classifyC3 1 = some CRKind.sc then some 1
            else (crInitState.state_map.lookup 0).join) :: crInitState.state_map) ∧
    ((traverseEdges (chainGraph [0, 1, 2, 3]) 10 0
        (crVisitor (mapClientReferences classifyC3 (chainGraph [0, 1, 2, 3])))
        crInitState).map (fun r => r.1.client_references)
      = some [{ server_component :=
                  ([1, 2].filter (fun x => classifyC3 x == some CRKind.sc)).getLast?
                ty := ClientReferenceType.ecmascriptClientReference
                  (([1, 2].getLast?).getD 0) 3 }]) :=
  ⟨(claim_nearest_boundary classifyC3).1 (chainGraph [0, 1, 2, 3]) (by decide)
      crInitState 0 1 (by decide),
   (claim_nearest_boundary classifyC3).2 0 [1, 2] 3 7 10 (by decide) (by decide)
      (by decide) (by decide)⟩

end ModGraph
